import Mathlib

/-!
Verification development for the building-sweep planner
(facility model, greedy/genetic optimizers, simulation engine).

The Python sources are shallowly embedded:
* `float` values that the claims reason about are modelled as `ℚ`
  (with `np.inf` as `⊤ : WithTop ℚ` where the code compares against it);
  `np.std`, which introduces a square root, is modelled over `ℝ`.
* The navigation-graph shortest-path service (`BuildingGraph.shortest_path`,
  which delegates to the external networkx Dijkstra implementation) is
  modelled as a distance oracle `Dist`; `⊤` is the `np.inf` "no path" answer.
* Python exceptions are modelled with `Except PyErr`; a bare
  `print` warning is modelled by appending to an explicit warning list.
* Python dicts keyed by ids are modelled as association lists in
  insertion order.
-/

namespace Sweep

/-- Python exception kinds that the embedded code can raise. -/
inductive PyErr where
  | zeroDivision
  | keyError
  | valueError
  | typeError
  | indexError
deriving DecidableEq, Repr

/-- The shortest-path distance oracle: `d s t` is the length returned by
`BuildingGraph.shortest_path(s, t)`, with `none` standing for `np.inf`
(the `NetworkXNoPath` outcome). -/
abbrev Dist := String → String → Option ℚ

/-- `x < y` on `np.inf`-extended floats (`none` is `np.inf`):
used verbatim for the `distance < best_distance` comparisons of the
greedy loops, whose `best_distance` starts at `np.inf`. -/
def infLt : Option ℚ → Option ℚ → Prop
  | some x, some y => x < y
  | some _, none => True
  | none, _ => False

instance : DecidableRel infLt := fun a b => by
  cases a <;> cases b <;> simp only [infLt] <;> infer_instance

/-- `Room` from `src/models/building.py` (static data; the mutable
clearance flags are threaded separately as simulation state). -/
structure Room where
  id : String
  area : ℚ
  posX : ℚ
  posY : ℚ
  floor : ℤ
  priority : ℤ
  checkComplexity : ℚ
deriving DecidableEq, Repr

/-- `Room.calculate_check_time`: `base_time + rate * area * check_complexity`. -/
def Room.calculate_check_time (room : Room) (base_time : ℚ) (rate : ℚ) : ℚ :=
  base_time + rate * room.area * room.checkComplexity

/-- The part of `Building` the optimizers and simulators read:
the insertion-ordered room dictionary (`building.rooms`). -/
structure Building where
  rooms : List Room
deriving DecidableEq, Repr

/-- `self.building.rooms[room_id]` dictionary lookup. -/
def Building.findRoom (b : Building) (roomId : String) : Option Room :=
  b.rooms.find? (fun r => r.id = roomId)

/-- Timeline event kinds appended by `Responder.move_to`,
`Responder.check_room` and `NodeSimulator._execute_node_path`. -/
inductive EvAction where
  | start
  | arrive
  | passing
  | checkComplete
deriving DecidableEq, Repr

/-- A timeline entry, projected to the fields the specification
reasons about (`time`, `action`, `location`). -/
structure Event where
  time : ℚ
  action : EvAction
  location : String
deriving DecidableEq, Repr

/-- `Responder` from `src/models/responder.py`: capability parameters
plus the mutable run state. -/
structure Responder where
  id : ℕ
  initialPosition : String
  walkSpeed : ℚ
  stairUpSpeed : ℚ
  stairDownSpeed : ℚ
  checkRate : ℚ
  baseCheckTime : ℚ
  position : String
  path : List String
  timeline : List Event
  currentTime : ℚ
  roomsChecked : List String
deriving DecidableEq, Repr

/-- `Responder.__init__` with explicit capabilities
(defaults as in the source). -/
def mkResponder (id : ℕ) (initialPosition : String)
    (walkSpeed : ℚ := 3/2) (stairUpSpeed : ℚ := 2/5)
    (stairDownSpeed : ℚ := 7/10) (checkRate : ℚ := 1)
    (baseCheckTime : ℚ := 10) : Responder :=
  { id := id
    initialPosition := initialPosition
    walkSpeed := walkSpeed
    stairUpSpeed := stairUpSpeed
    stairDownSpeed := stairDownSpeed
    checkRate := checkRate
    baseCheckTime := baseCheckTime
    position := initialPosition
    path := [initialPosition]
    timeline := [⟨0, .start, initialPosition⟩]
    currentTime := 0
    roomsChecked := [] }

/-- `Responder.reset`. -/
def Responder.reset (r : Responder) : Responder :=
  { r with
    position := r.initialPosition
    path := [r.initialPosition]
    timeline := [⟨0, .start, r.initialPosition⟩]
    currentTime := 0
    roomsChecked := [] }

/-- `Responder.move_to`: travel time is `distance / walk_speed`, or the
stair speed selected by the sign of `floor_change` when `is_stairs`. -/
def Responder.move_to (r : Responder) (location : String) (distance : ℚ)
    (is_stairs : Bool := false) (floorChange : ℤ := 0) : Responder :=
  let travelTime :=
    if is_stairs then
      if floorChange > 0 then distance / r.stairUpSpeed
      else distance / r.stairDownSpeed
    else distance / r.walkSpeed
  let t := r.currentTime + travelTime
  { r with
    currentTime := t
    position := location
    path := r.path ++ [location]
    timeline := r.timeline ++ [⟨t, .arrive, location⟩] }

/-- Clearance state of the rooms (`room.cleared/cleared_at/cleared_by`),
keyed by room id; the most recent write is first. -/
abbrev Clearance := List (String × ℚ × ℕ)

/-- `Responder.check_room`: accumulate the check time, record the room,
and mark it cleared (the clearance write is returned alongside the
updated responder since room state is threaded explicitly). -/
def Responder.check_room (r : Responder) (room : Room) (c : Clearance) :
    Responder × Clearance :=
  let checkTime := room.calculate_check_time r.baseCheckTime r.checkRate
  let t := r.currentTime + checkTime
  ({ r with
      currentTime := t
      roomsChecked := r.roomsChecked ++ [room.id]
      timeline := r.timeline ++ [⟨t, .checkComplete, room.id⟩] },
   (room.id, t, r.id) :: c)

/-- A recorded `PathNotFound` warning: the printed message
`"Warning: No path from {current_location} to {room_id}"`,
modelled by its `(current_location, room_id)` pair. -/
abbrev Warning := String × String

/-- `Simulator._execute_path`: walk the assigned room list, skipping
unreachable rooms with a warning; reachable rooms that are missing from
the building's room dictionary raise a `KeyError`. -/
def executePath (d : Dist) (b : Building) :
    Responder → String → List String → Clearance → List Warning →
    Except PyErr (Responder × Clearance × List Warning)
  | r, _, [], c, ws => .ok (r, c, ws)
  | r, current, roomId :: rest, c, ws =>
    match d current roomId with
    | none => executePath d b r current rest c (ws ++ [(current, roomId)])
    | some dist =>
      let r' := r.move_to roomId dist
      match b.findRoom roomId with
      | none => .error .keyError
      | some room =>
        let rc := r'.check_room room c
        executePath d b rc.1 roomId rest rc.2 ws

/-- An agent → ordered room-id sequence assignment
(`Dict[int, List[str]]`), in key insertion order. -/
abbrev Assignment := List (ℕ × List String)

/-- Per-run simulation result (the `results` dictionary of
`Simulator._collect_results`); `load_balance` is a derived metric of
`responderTimes`, see `loadBalance` below. -/
structure SimResult where
  success : Bool
  totalTime : ℚ
  responders : List Responder
  responderTimes : List ℚ
  roomClearance : List (String × Option (ℚ × ℕ))
  avgClearanceTime : ℚ
  redundancyCoverage : ℚ
  warnings : List Warning
deriving DecidableEq, Repr

/-- `np.mean` of a rational list (only applied to nonempty lists). -/
def npMean (ts : List ℚ) : ℚ := ts.sum / ts.length

/-- Population variance (the square of `np.std`). -/
def npVar (ts : List ℚ) : ℚ :=
  ((ts.map (fun t => (t - npMean ts) ^ 2)).sum) / ts.length

/-- `np.std` (population standard deviation). -/
noncomputable def npStd (ts : List ℚ) : ℝ := Real.sqrt (npVar ts)

/-- The `load_balance` metric of `Simulator._collect_results`:
`1.0 - np.std(times) / np.mean(times)` when the team list is nonempty,
else `1.0`.  When the mean is `0` the numpy quotient is not a finite
float (`0.0/0.0 = nan`, `s/0.0 = inf`), modelled as `none`. -/
noncomputable def loadBalance (ts : List ℚ) : Option ℝ :=
  if ts = [] then some 1
  else if npMean ts = 0 then none
  else some (1 - npStd ts / (npMean ts : ℝ))

/-- The `load_balance` metric of `NodeSimulator._collect_results`:
unlike the coarse simulator, its guard is
`if responder_times and np.mean(responder_times) > 0 else 1.0`, so a
zero (or negative) mean yields `1.0`. -/
noncomputable def nodeLoadBalance (ts : List ℚ) : ℝ :=
  if ts ≠ [] ∧ 0 < npMean ts then 1 - npStd ts / (npMean ts : ℝ) else 1

/-- `Simulator._collect_results` (minus `load_balance`, which is a
derived metric of the stored per-responder times): raises
`ZeroDivisionError` when the building has no rooms (the
`redundancy_coverage` quotient) and `ValueError` when the team is empty
(`max()` over no responders). -/
def collectResults (b : Building) (team : List Responder)
    (c : Clearance) (ws : List Warning) : Except PyErr SimResult :=
  if team.isEmpty then .error .valueError
  else if b.rooms.isEmpty then .error .zeroDivision
  else
    let clearanceOf := fun (room : Room) => c.lookup room.id
    let allCleared := b.rooms.all (fun room => (clearanceOf room).isSome)
    let clearanceTimes :=
      (b.rooms.filterMap clearanceOf).map Prod.fst
    let avgClearance := if clearanceTimes = [] then 0 else npMean clearanceTimes
    let counts := fun (roomId : String) =>
      (team.map (fun r => r.roomsChecked.count roomId)).sum
    let redundant :=
      (b.rooms.filter (fun room => 1 < counts room.id)).length
    .ok
      { success := allCleared
        totalTime := (team.map Responder.currentTime).foldl max
          ((team.head?.map Responder.currentTime).getD 0)
        responders := team
        responderTimes := team.map Responder.currentTime
        roomClearance := b.rooms.map (fun room => (room.id, clearanceOf room))
        avgClearanceTime := avgClearance
        redundancyCoverage := (redundant : ℚ) / (b.rooms.length : ℚ)
        warnings := ws }

/-- The per-team loop of `Simulator.run`: execute each responder's
assignment in team order (`self.assignment[responder.id]` raising
`KeyError` when the id is absent). -/
def runTeam (d : Dist) (b : Building) (assignment : Assignment) :
    List Responder → Clearance → List Warning →
    Except PyErr (List Responder × Clearance × List Warning)
  | [], c, ws => .ok ([], c, ws)
  | r :: rest, c, ws =>
    match assignment.lookup r.id with
    | none => .error .keyError
    | some roomIds =>
      match executePath d b r r.position roomIds c ws with
      | .error e => .error e
      | .ok (r', c', ws') =>
        match runTeam d b assignment rest c' ws' with
        | .error e => .error e
        | .ok (rs, c'', ws'') => .ok (r' :: rs, c'', ws'')

/-- `Simulator.run`: reset the building clearance and the team, replay
every responder's assignment, then collect results. -/
def simRun (d : Dist) (b : Building) (team : List Responder)
    (assignment : Assignment) : Except PyErr SimResult :=
  let team := team.map Responder.reset
  match runTeam d b assignment team [] [] with
  | .error e => .error e
  | .ok (team', c, ws) => collectResults b team' c ws

/-! ### Lemmas about `executePath` and `runTeam` -/

theorem executePath_ok (d : Dist) (b : Building) (roomIds : List String)
    (r : Responder) (cur : String) (c : Clearance) (ws : List Warning)
    (h : ∀ id ∈ roomIds, (b.findRoom id).isSome = true ∨ ∀ x, d x id = none) :
    ∃ out, executePath d b r cur roomIds c ws = .ok out := by
  induction roomIds generalizing r cur c ws with
  | nil => exact ⟨(r, c, ws), rfl⟩
  | cons roomId rest ih =>
    have hhead := h roomId (List.mem_cons_self _ _)
    have htail : ∀ id ∈ rest, (b.findRoom id).isSome = true ∨ ∀ x, d x id = none :=
      fun id hid => h id (List.mem_cons_of_mem _ hid)
    rcases hd : d cur roomId with _ | dist
    · simpa [executePath, hd] using ih r cur c (ws ++ [(cur, roomId)]) htail
    · rcases hhead with hroom | hunreach
      · rcases hfind : b.findRoom roomId with _ | room
        · simp [hfind] at hroom
        · simpa [executePath, hd, hfind] using
            ih _ roomId ((r.move_to roomId dist).check_room room c).2 ws htail
      · rw [hunreach cur] at hd; exact absurd hd (by simp)

theorem executePath_clearance_frozen (d : Dist) (b : Building) (roomIds : List String)
    {r : Responder} {cur : String} {c : Clearance} {ws : List Warning} {out}
    (r0 : String) (hunreach : ∀ x, d x r0 = none)
    (h : executePath d b r cur roomIds c ws = .ok out) :
    out.2.1.lookup r0 = c.lookup r0 := by
  induction roomIds generalizing r cur c ws with
  | nil =>
    simp only [executePath] at h
    cases h; rfl
  | cons roomId rest ih =>
    rcases hd : d cur roomId with _ | dist
    · rw [executePath, hd] at h
      exact ih h
    · have hne : roomId ≠ r0 := by
        intro he; rw [he, hunreach cur] at hd; exact absurd hd (by simp)
      rw [executePath, hd] at h
      rcases hfind : b.findRoom roomId with _ | room
      · rw [hfind] at h; cases h
      · rw [hfind] at h
        have hid : room.id = roomId := by
          have := List.find?_some hfind
          simpa using this
        have hbeq : (r0 == roomId) = false := beq_eq_false_iff_ne.mpr (Ne.symm hne)
        have hstep := ih h
        rw [hstep]
        simp [Responder.check_room, List.lookup, hid, hbeq]

theorem executePath_warnings_mono (d : Dist) (b : Building) (roomIds : List String)
    {r : Responder} {cur : String} {c : Clearance} {ws : List Warning} {out}
    (h : executePath d b r cur roomIds c ws = .ok out) :
    ∃ extra, out.2.2 = ws ++ extra := by
  induction roomIds generalizing r cur c ws with
  | nil =>
    simp only [executePath] at h
    cases h; exact ⟨[], by simp⟩
  | cons roomId rest ih =>
    rcases hd : d cur roomId with _ | dist
    · rw [executePath, hd] at h
      obtain ⟨extra, hx⟩ := ih h
      exact ⟨(cur, roomId) :: extra, by simpa using hx⟩
    · rw [executePath, hd] at h
      rcases hfind : b.findRoom roomId with _ | room
      · rw [hfind] at h; cases h
      · rw [hfind] at h
        exact ih h

theorem executePath_warned (d : Dist) (b : Building) (roomIds : List String)
    {r : Responder} {cur : String} {c : Clearance} {ws : List Warning} {out}
    (r0 : String) (hr0 : r0 ∈ roomIds) (hunreach : ∀ x, d x r0 = none)
    (h : executePath d b r cur roomIds c ws = .ok out) :
    ∃ loc, (loc, r0) ∈ out.2.2 := by
  induction roomIds generalizing r cur c ws with
  | nil => cases hr0
  | cons roomId rest ih =>
    rcases List.mem_cons.mp hr0 with he | htail
    · subst he
      rw [executePath, hunreach cur] at h
      obtain ⟨extra, hx⟩ := executePath_warnings_mono d b rest h
      exact ⟨cur, by rw [hx]; simp⟩
    · rcases hd : d cur roomId with _ | dist
      · rw [executePath, hd] at h
        exact ih htail h
      · rw [executePath, hd] at h
        rcases hfind : b.findRoom roomId with _ | room
        · rw [hfind] at h; cases h
        · rw [hfind] at h
          exact ih htail h

theorem runTeam_ok (d : Dist) (b : Building) (asg : Assignment) (team : List Responder)
    (c : Clearance) (ws : List Warning)
    (hk : ∀ r ∈ team, (asg.lookup r.id).isSome = true)
    (hr : ∀ r ∈ team, ∀ id ∈ (asg.lookup r.id).getD [],
      (b.findRoom id).isSome = true ∨ ∀ x, d x id = none) :
    ∃ out, runTeam d b asg team c ws = .ok out := by
  induction team generalizing c ws with
  | nil => exact ⟨([], c, ws), rfl⟩
  | cons r rest ih =>
    have hkr := hk r (List.mem_cons_self _ _)
    rcases hl : asg.lookup r.id with _ | roomIds
    · rw [hl] at hkr; cases hkr
    · have hrr := hr r (List.mem_cons_self _ _)
      rw [hl] at hrr
      obtain ⟨⟨r1, c1, ws1⟩, hout1⟩ :=
        executePath_ok d b roomIds r r.position c ws (by simpa using hrr)
      obtain ⟨⟨rs, c2, ws2⟩, hout2⟩ := ih c1 ws1
        (fun x hx => hk x (List.mem_cons_of_mem _ hx))
        (fun x hx => hr x (List.mem_cons_of_mem _ hx))
      exact ⟨(r1 :: rs, c2, ws2), by simp [runTeam, hl, hout1, hout2]⟩

theorem runTeam_length (d : Dist) (b : Building) (asg : Assignment) (team : List Responder)
    {c : Clearance} {ws : List Warning} {out}
    (h : runTeam d b asg team c ws = .ok out) :
    out.1.length = team.length := by
  induction team generalizing c ws out with
  | nil =>
    simp only [runTeam] at h
    cases h; rfl
  | cons r rest ih =>
    rcases hl : asg.lookup r.id with _ | roomIds
    · simp only [runTeam, hl] at h
      exact absurd h (by simp)
    · simp only [runTeam, hl] at h
      rcases hex : executePath d b r r.position roomIds c ws with e | ⟨r1, c1, ws1⟩
      · simp only [hex] at h
        exact absurd h (by simp)
      · simp only [hex] at h
        rcases hrt : runTeam d b asg rest c1 ws1 with e | ⟨rs, c2, ws2⟩
        · simp only [hrt] at h
          exact absurd h (by simp)
        · simp only [hrt] at h
          cases h
          simpa using ih hrt

theorem runTeam_clearance_frozen (d : Dist) (b : Building) (asg : Assignment)
    (team : List Responder) {c : Clearance} {ws : List Warning} {out}
    (r0 : String) (hunreach : ∀ x, d x r0 = none)
    (h : runTeam d b asg team c ws = .ok out) :
    out.2.1.lookup r0 = c.lookup r0 := by
  induction team generalizing c ws out with
  | nil =>
    simp only [runTeam] at h
    cases h; rfl
  | cons r rest ih =>
    rcases hl : asg.lookup r.id with _ | roomIds
    · simp only [runTeam, hl] at h
      exact absurd h (by simp)
    · simp only [runTeam, hl] at h
      rcases hex : executePath d b r r.position roomIds c ws with e | ⟨r1, c1, ws1⟩
      · simp only [hex] at h
        exact absurd h (by simp)
      · simp only [hex] at h
        rcases hrt : runTeam d b asg rest c1 ws1 with e | ⟨rs, c2, ws2⟩
        · simp only [hrt] at h
          exact absurd h (by simp)
        · simp only [hrt] at h
          cases h
          have h1 := executePath_clearance_frozen d b roomIds r0 hunreach hex
          have h2 := ih hrt
          simpa [h1] using h2

theorem runTeam_warnings_mono (d : Dist) (b : Building) (asg : Assignment)
    (team : List Responder) {c : Clearance} {ws : List Warning} {out}
    (h : runTeam d b asg team c ws = .ok out) :
    ∃ extra, out.2.2 = ws ++ extra := by
  induction team generalizing c ws out with
  | nil =>
    simp only [runTeam] at h
    cases h; exact ⟨[], by simp⟩
  | cons r rest ih =>
    rcases hl : asg.lookup r.id with _ | roomIds
    · simp only [runTeam, hl] at h
      exact absurd h (by simp)
    · simp only [runTeam, hl] at h
      rcases hex : executePath d b r r.position roomIds c ws with e | ⟨r1, c1, ws1⟩
      · simp only [hex] at h
        exact absurd h (by simp)
      · simp only [hex] at h
        rcases hrt : runTeam d b asg rest c1 ws1 with e | ⟨rs, c2, ws2⟩
        · simp only [hrt] at h
          exact absurd h (by simp)
        · simp only [hrt] at h
          cases h
          obtain ⟨e1, he1⟩ := executePath_warnings_mono d b roomIds hex
          obtain ⟨e2, he2⟩ := ih hrt
          refine ⟨e1 ++ e2, ?_⟩
          have hw1 : ws1 = ws ++ e1 := by simpa using he1
          have hw2 : ws2 = ws1 ++ e2 := by simpa using he2
          simp [hw2, hw1]

theorem runTeam_warned (d : Dist) (b : Building) (asg : Assignment)
    (team : List Responder) {c : Clearance} {ws : List Warning} {out}
    (r0 : String) (hmem : ∃ r ∈ team, r0 ∈ (asg.lookup r.id).getD [])
    (hunreach : ∀ x, d x r0 = none)
    (h : runTeam d b asg team c ws = .ok out) :
    ∃ loc, (loc, r0) ∈ out.2.2 := by
  induction team generalizing c ws out with
  | nil => simp at hmem
  | cons r rest ih =>
    rcases hl : asg.lookup r.id with _ | roomIds
    · simp only [runTeam, hl] at h
      exact absurd h (by simp)
    · simp only [runTeam, hl] at h
      rcases hex : executePath d b r r.position roomIds c ws with e | ⟨r1, c1, ws1⟩
      · simp only [hex] at h
        exact absurd h (by simp)
      · simp only [hex] at h
        rcases hrt : runTeam d b asg rest c1 ws1 with e | ⟨rs, c2, ws2⟩
        · simp only [hrt] at h
          exact absurd h (by simp)
        · simp only [hrt] at h
          cases h
          rcases hmem with ⟨rr, hrr, hr0⟩
          rcases List.mem_cons.mp hrr with he | htail
          · subst he
            rw [hl] at hr0
            obtain ⟨loc, hloc⟩ := executePath_warned d b roomIds r0 (by simpa using hr0)
              hunreach hex
            obtain ⟨extra, hx⟩ := runTeam_warnings_mono d b asg rest hrt
            refine ⟨loc, ?_⟩
            have : ws2 = ws1 ++ extra := by simpa using hx
            simp only [this]
            exact List.mem_append.mpr (Or.inl (by simpa using hloc))
          · simpa using ih ⟨rr, htail, hr0⟩ hrt

theorem lookup_map_clearance (rooms : List Room) (c : Clearance) {r0 : String} {room : Room}
    (hfind : rooms.find? (fun r => r.id = r0) = some room) :
    (rooms.map (fun room => (room.id, c.lookup room.id))).lookup r0 = some (c.lookup r0) := by
  induction rooms with
  | nil => cases hfind
  | cons x rest ih =>
    by_cases hx : x.id = r0
    · subst hx
      simp [List.lookup]
    · rw [List.find?_cons_of_neg _ (by simpa using hx)] at hfind
      have hbeq : (r0 == x.id) = false := beq_eq_false_iff_ne.mpr (Ne.symm hx)
      simpa [List.lookup, hbeq] using ih hfind


def dC2x : Dist := fun s t => if s = "E1" ∧ t = "R1" then some 1 else none

def bC2x : Building := ⟨[⟨"R1", 4, 0, 0, 1, 1, 1⟩]⟩

def teamC2x : List Responder :=
  [mkResponder 1 "E1" 1 (2/5) (7/10) 1 0, mkResponder 2 "E1" 1 (2/5) (7/10) 1 0,
   mkResponder 3 "E1" 1 (2/5) (7/10) 1 0, mkResponder 4 "E1" 1 (2/5) (7/10) 1 0,
   mkResponder 5 "E1" 1 (2/5) (7/10) 1 0]

def asgC2x : Assignment := [(1, []), (2, []), (3, []), (4, []), (5, ["R1"])]

theorem collectResults_ok (b : Building) (team : List Responder) (c : Clearance)
    (ws : List Warning) (h1 : team.isEmpty = false) (h2 : b.rooms.isEmpty = false) :
    collectResults b team c ws = .ok
      { success := b.rooms.all (fun room => (c.lookup room.id).isSome)
        totalTime := (team.map Responder.currentTime).foldl max
          ((team.head?.map Responder.currentTime).getD 0)
        responders := team
        responderTimes := team.map Responder.currentTime
        roomClearance := b.rooms.map (fun room => (room.id, c.lookup room.id))
        avgClearanceTime :=
          if ((b.rooms.filterMap (fun room => c.lookup room.id)).map Prod.fst) = [] then 0
          else npMean ((b.rooms.filterMap (fun room => c.lookup room.id)).map Prod.fst)
        redundancyCoverage :=
          ((b.rooms.filter (fun room =>
            1 < (team.map (fun r => r.roomsChecked.count room.id)).sum)).length : ℚ) /
            (b.rooms.length : ℚ)
        warnings := ws } := by
  unfold collectResults
  rw [if_neg (by simp [h1]), if_neg (by simp [h2])]

/-! ### Claim C1: unreachable rooms degrade the run instead of aborting it -/

/-- C1: with a team whose ids are all covered by the assignment, whose
assigned ids are all rooms of the facility, and an assigned room `r0`
that is unreachable (the disconnected-room scenario: no node reaches
it), `Simulator.run` returns normally with `success = false`, leaves
`r0`'s clearance record unset, and records a `PathNotFound` warning
naming `r0` instead of aborting. -/
theorem simRun_unreachable_degrades (d : Dist) (b : Building) (team : List Responder)
    (asg : Assignment) (r0 : String)
    (hteam : team ≠ [])
    (hk : ∀ r ∈ team, (asg.lookup r.id).isSome = true)
    (hrooms : ∀ r ∈ team, ∀ id ∈ (asg.lookup r.id).getD [], (b.findRoom id).isSome = true)
    (hassigned : ∃ r ∈ team, r0 ∈ (asg.lookup r.id).getD [])
    (hunreach : ∀ x, d x r0 = none) :
    ∃ res, simRun d b team asg = .ok res ∧
      res.success = false ∧
      res.roomClearance.lookup r0 = some none ∧
      ∃ loc, (loc, r0) ∈ res.warnings := by
  classical
  set team' := team.map Responder.reset with hteamdef
  have hk' : ∀ r ∈ team', (asg.lookup r.id).isSome = true := by
    intro r hm
    obtain ⟨x, hx, rfl⟩ := List.mem_map.mp hm
    exact hk x hx
  have hrooms' : ∀ r ∈ team', ∀ id ∈ (asg.lookup r.id).getD [],
      (b.findRoom id).isSome = true ∨ ∀ x, d x id = none := by
    intro r hm id hid
    obtain ⟨x, hx, rfl⟩ := List.mem_map.mp hm
    exact Or.inl (hrooms x hx id hid)
  obtain ⟨⟨tr, c, ws⟩, hout⟩ := runTeam_ok d b asg team' [] [] hk' hrooms'
  -- the distinguished unreachable room is a room of the facility
  obtain ⟨ra, hra, hr0a⟩ := hassigned
  have hfind0 : (b.findRoom r0).isSome = true := hrooms ra hra r0 hr0a
  obtain ⟨room0, hfind⟩ := Option.isSome_iff_exists.mp hfind0
  have hroom0mem : room0 ∈ b.rooms := List.mem_of_find?_eq_some hfind
  have hid0 : room0.id = r0 := by simpa using List.find?_some hfind
  -- clearance of r0 is never written
  have hc0 : c.lookup r0 = none := by
    have := runTeam_clearance_frozen d b asg team' r0 hunreach hout
    simpa using this
  -- the warning is recorded
  have hwarn : ∃ loc, (loc, r0) ∈ ws := by
    have hmem' : ∃ r ∈ team', r0 ∈ (asg.lookup r.id).getD [] :=
      ⟨ra.reset, List.mem_map.mpr ⟨ra, hra, rfl⟩, hr0a⟩
    simpa using runTeam_warned d b asg team' r0 hmem' hunreach hout
  -- the returned team is nonempty, the facility is nonempty
  have htr : tr.isEmpty = false := by
    cases htr' : tr with
    | nil =>
      have hlen := runTeam_length d b asg team' hout
      rw [htr'] at hlen
      have h0 : team'.length = 0 := by simpa using hlen.symm
      have h1 : team' = [] := List.length_eq_zero.mp h0
      rw [hteamdef] at h1
      exact absurd (List.map_eq_nil_iff.mp h1) hteam
    | cons x xs => rfl
  have hrne : b.rooms.isEmpty = false := by
    cases hbr : b.rooms with
    | nil => rw [hbr] at hroom0mem; cases hroom0mem
    | cons x xs => rfl
  have hrun : simRun d b team asg = collectResults b tr c ws := by
    simp only [simRun, ← hteamdef, hout]
  have hcoll := collectResults_ok b tr c ws htr hrne
  refine ⟨_, hrun.trans hcoll, ?_, ?_, ?_⟩
  · show (b.rooms.all fun room => ((c.lookup room.id).isSome)) = false
    cases hall : (b.rooms.all fun room => ((c.lookup room.id).isSome)) with
    | false => rfl
    | true =>
      have := List.all_eq_true.mp hall room0 hroom0mem
      rw [hid0, hc0] at this
      simp at this
  · show (b.rooms.map fun room => (room.id, c.lookup room.id)).lookup r0 = some none
    have := @lookup_map_clearance b.rooms c r0 room0 hfind
    rw [this, hc0]
  · exact hwarn

def dC1w : Dist := fun s t => if s = "E1" ∧ t = "R1" then some 5 else none

def bC1w : Building := ⟨[⟨"R1", 4, 0, 0, 1, 1, 1⟩, ⟨"R2", 4, 9, 0, 1, 1, 1⟩]⟩

/-- Witness for C1 at a concrete facility with a disconnected room `R2`. -/
theorem simRun_unreachable_degrades_witness :
    ∃ res, simRun dC1w bC1w [mkResponder 1 "E1"] [(1, ["R1", "R2"])] = .ok res ∧
      res.success = false ∧
      res.roomClearance.lookup "R2" = some none ∧
      ∃ loc, (loc, "R2") ∈ res.warnings :=
  simRun_unreachable_degrades dC1w bC1w [mkResponder 1 "E1"] [(1, ["R1", "R2"])] "R2"
    (by simp)
    (by intro r hr; simp only [List.mem_singleton] at hr; subst hr; simp [mkResponder, List.lookup])
    (by
      intro r hr id hid
      simp only [List.mem_singleton] at hr; subst hr
      have h2 : id = "R1" ∨ id = "R2" := by
        simpa [mkResponder, List.lookup] using hid
      rcases h2 with rfl | rfl <;> simp [bC1w, Building.findRoom])
    (⟨mkResponder 1 "E1", by simp, by simp [mkResponder, List.lookup]⟩)
    (by intro x; simp [dC1w])

/-! ### Claim C2: the load-balance metric -/

theorem sum_sq_sub_eq_zero_iff (m : ℚ) (l : List ℚ) :
    (l.map (fun t => (t - m) ^ 2)).sum = 0 ↔ ∀ t ∈ l, t = m := by
  induction l with
  | nil => simp
  | cons a rest ih =>
    simp only [List.map_cons, List.sum_cons, List.mem_cons]
    constructor
    · intro h
      have h1 : (0:ℚ) ≤ (a - m) ^ 2 := sq_nonneg _
      have h2 : (0:ℚ) ≤ (rest.map (fun t => (t - m) ^ 2)).sum := by
        apply List.sum_nonneg
        intro x hx
        obtain ⟨t, _, rfl⟩ := List.mem_map.mp hx
        exact sq_nonneg _
      have ha : (a - m) ^ 2 = 0 := by linarith
      have hr : (rest.map (fun t => (t - m) ^ 2)).sum = 0 := by linarith
      have ham : a = m := by
        have := pow_eq_zero_iff (n := 2) (by norm_num) |>.mp ha
        linarith [sub_eq_zero.mp this]
      intro t ht
      rcases ht with rfl | ht
      · exact ham
      · exact ih.mp hr t ht
    · intro h
      have ha : a = m := h a (Or.inl rfl)
      have hr : (rest.map (fun t => (t - m) ^ 2)).sum = 0 :=
        ih.mpr (fun t ht => h t (Or.inr ht))
      simp [ha, hr]

theorem npVar_nonneg (ts : List ℚ) : 0 ≤ npVar ts := by
  unfold npVar
  apply div_nonneg
  · apply List.sum_nonneg
    intro x hx
    obtain ⟨t, _, rfl⟩ := List.mem_map.mp hx
    exact sq_nonneg _
  · exact_mod_cast Nat.zero_le _

theorem npMean_of_all_eq {ts : List ℚ} {a : ℚ} (hne : ts ≠ []) (h : ∀ t ∈ ts, t = a) :
    npMean ts = a := by
  have hrep : ts = List.replicate ts.length a := List.eq_replicate_of_mem h
  have hlen : (ts.length : ℚ) ≠ 0 := by
    have : ts.length ≠ 0 := fun hh => hne (List.length_eq_zero.mp hh)
    exact_mod_cast this
  rw [npMean]
  conv_lhs => rw [hrep]
  rw [List.sum_replicate]
  field_simp [nsmul_eq_mul]

/-- C2 counterexample: a run of `Simulator` on one room and five agents,
four of them idle, has per-agent times `[0,0,0,0,5]`, whose recorded
`load_balance` is `-1`, outside `[0,1]` (the code never clamps). -/
theorem loadBalance_not_in_unit_interval :
    (simRun dC2x bC2x teamC2x asgC2x).map SimResult.responderTimes = .ok [0, 0, 0, 0, 5]
    ∧ loadBalance [0, 0, 0, 0, 5] = some (-1) ∧ ¬ ((0:ℝ) ≤ -1 ∧ (-1:ℝ) ≤ 1) := by
  refine ⟨?_, ?_, by norm_num⟩
  · simp [simRun, runTeam, executePath, collectResults, mkResponder, Responder.reset,
      Responder.move_to, Responder.check_room, Room.calculate_check_time, Building.findRoom,
      dC2x, bC2x, teamC2x, asgC2x, Except.map, List.lookup]
    norm_num
  · have hm : npMean [0, 0, 0, 0, 5] = 1 := by norm_num [npMean]
    have hv : npVar [0, 0, 0, 0, 5] = 4 := by norm_num [npVar, npMean]
    have hs : npStd [0, 0, 0, 0, 5] = 2 := by
      rw [npStd, hv, show ((4:ℚ):ℝ) = (2:ℝ) ^ 2 by norm_num]
      exact Real.sqrt_sq (by norm_num)
    rw [loadBalance, if_neg (by simp), if_neg (by rw [hm]; norm_num), hs, hm]
    norm_num

/-- C2 amended: neither simulator clamps.  For a nonempty team with
nonzero mean, `Simulator._collect_results` computes exactly
`1 - std/mean` (so the value can lie outside `[0,1]`, see the
counterexample), and it equals `1` exactly when all per-agent times are
equal; `NodeSimulator._collect_results` computes the same unclamped
formula whenever the mean is positive.  At zero mean the two cited
sources differ: `NodeSimulator` returns `1.0` (its guard is
`np.mean > 0`) as the spec requires, while `Simulator` guards only
against an empty team, so its numpy expression is non-finite
(`0.0/0.0 = nan`, modelled `none`), not `1`. -/
theorem loadBalance_unclamped (ts : List ℚ) (hne : ts ≠ []) :
    (npMean ts ≠ 0 →
      loadBalance ts = some (1 - npStd ts / (npMean ts : ℝ))
      ∧ (loadBalance ts = some 1 ↔ ∀ t ∈ ts, ∀ u ∈ ts, t = u))
    ∧ (0 < npMean ts → nodeLoadBalance ts = 1 - npStd ts / (npMean ts : ℝ))
    ∧ (npMean ts = 0 → loadBalance ts = none ∧ nodeLoadBalance ts = 1) := by
  refine ⟨fun hm => ?_,
    fun hpos => by rw [nodeLoadBalance, if_pos ⟨hne, hpos⟩],
    fun hz => ⟨by rw [loadBalance, if_neg hne, if_pos hz], by
      have hcond : ¬ (ts ≠ [] ∧ 0 < npMean ts) := by
        rintro ⟨h1, h2⟩
        rw [hz] at h2
        exact lt_irrefl 0 h2
      rw [nodeLoadBalance, if_neg hcond]⟩⟩
  have heq : loadBalance ts = some (1 - npStd ts / (npMean ts : ℝ)) := by
    rw [loadBalance, if_neg hne, if_neg hm]
  refine ⟨heq, ?_⟩
  rw [heq]
  have hmr : ((npMean ts : ℚ) : ℝ) ≠ 0 := by exact_mod_cast hm
  constructor
  · intro h
    have h1 : 1 - npStd ts / (npMean ts : ℝ) = 1 := by simpa using h
    have h2 : npStd ts / (npMean ts : ℝ) = 0 := by linarith
    have h3 : npStd ts = 0 := by
      rcases div_eq_zero_iff.mp h2 with h' | h'
      · exact h'
      · exact absurd h' hmr
    have h4 : (npVar ts : ℝ) ≤ 0 := Real.sqrt_eq_zero'.mp h3
    have h5 : npVar ts = 0 := by
      have := npVar_nonneg ts
      have h6 : (npVar ts : ℝ) = 0 := le_antisymm h4 (by exact_mod_cast this)
      exact_mod_cast h6
    have hlen : (ts.length : ℚ) ≠ 0 := by
      have : ts.length ≠ 0 := fun hh => hne (List.length_eq_zero.mp hh)
      exact_mod_cast this
    have h7 : (ts.map (fun t => (t - npMean ts) ^ 2)).sum = 0 := by
      rw [npVar] at h5
      rcases div_eq_zero_iff.mp h5 with h' | h'
      · exact h'
      · exact absurd h' hlen
    have h8 := (sum_sq_sub_eq_zero_iff (npMean ts) ts).mp h7
    intro t ht u hu
    rw [h8 t ht, h8 u hu]
  · intro h
    obtain ⟨a, rest, rfl⟩ := List.exists_cons_of_ne_nil hne
    have hall : ∀ t ∈ a :: rest, t = a := fun t ht => h t ht a (List.mem_cons_self _ _)
    have hmean : npMean (a :: rest) = a := npMean_of_all_eq hne hall
    have hsum : ((a :: rest).map (fun t => (t - npMean (a :: rest)) ^ 2)).sum = 0 := by
      apply (sum_sq_sub_eq_zero_iff _ _).mpr
      intro t ht
      rw [hall t ht, hmean]
    have hvar : npVar (a :: rest) = 0 := by
      rw [npVar, hsum, zero_div]
    have : npStd (a :: rest) = 0 := by
      rw [npStd, hvar]
      simp
    rw [this]
    norm_num

/-- Witness for the amended C2: the times `[1, 1]` exercise the
nonzero-mean clauses of both simulators, and `[0, 0]` the zero-mean
split (coarse simulator non-finite, node simulator `1`). -/
theorem loadBalance_unclamped_witness :
    npMean [1, 1] ≠ 0 ∧
    (loadBalance [1, 1] = some (1 - npStd [1, 1] / (npMean [1, 1] : ℝ))
      ∧ (loadBalance [1, 1] = some 1
        ↔ ∀ t ∈ ([1, 1] : List ℚ), ∀ u ∈ ([1, 1] : List ℚ), t = u)) ∧
    nodeLoadBalance [1, 1] = 1 - npStd [1, 1] / (npMean [1, 1] : ℝ) ∧
    (loadBalance [0, 0] = none ∧ nodeLoadBalance [0, 0] = 1) :=
  ⟨by norm_num [npMean],
   (loadBalance_unclamped [1, 1] (by simp)).1 (by norm_num [npMean]),
   (loadBalance_unclamped [1, 1] (by simp)).2.1 (by norm_num [npMean]),
   (loadBalance_unclamped [0, 0] (by simp)).2.2 (by norm_num [npMean])⟩

/-! ### Claim C3: the empty facility -/

/-- C3: on a facility with zero rooms, a nonempty team and the empty
assignment, `Simulator.run` does not return a trivial successful
result: `_collect_results` divides by `len(self.building.rooms) = 0`
when computing `redundancy_coverage`, so the run raises
`ZeroDivisionError` (the spec calls for `success = true`, total time 0). -/
theorem simRun_empty_facility_zero_division :
    simRun (fun _ _ => none) (⟨[]⟩ : Building) [mkResponder 1 "E1"] [(1, [])] =
      .error .zeroDivision := by
  simp [simRun, runTeam, executePath, collectResults, mkResponder, Responder.reset, List.lookup]


/-! ### Greedy optimizer (`src/algorithms/greedy.py`) -/

/-- `ResponderTeam.__init__`: responder ids `1..n`, initial positions
padded with `"E1"` when the list is too short. -/
def mkTeam (n_responders : ℕ) (initial_positions : List String)
    (walkSpeed : ℚ := 3/2) (stairUpSpeed : ℚ := 2/5) (stairDownSpeed : ℚ := 7/10)
    (checkRate : ℚ := 1) (baseCheckTime : ℚ := 10) : List Responder :=
  (List.range n_responders).map (fun i =>
    mkResponder (i + 1) (initial_positions.getD i "E1")
      walkSpeed stairUpSpeed stairDownSpeed checkRate baseCheckTime)

/-- `{r.id: [] for r in self.team}`. -/
def initAssignment (team : List Responder) : Assignment :=
  team.map (fun r => (r.id, []))

/-- `assignment[i].append(x)` on the association-list model of the dict. -/
def appendTo : Assignment → ℕ → String → Assignment
  | [], _, _ => []
  | (j, l) :: rest, i, x =>
    if j = i then (j, l ++ [x]) :: rest else (j, l) :: appendTo rest i x

/-- `assignment[i] = xs`. -/
def setAssign : Assignment → ℕ → List String → Assignment
  | [], _, _ => []
  | (j, l) :: rest, i, xs =>
    if j = i then (j, xs) :: rest else (j, l) :: setAssign rest i xs

/-- `positions[i] = x`. -/
def updatePos : List (ℕ × String) → ℕ → String → List (ℕ × String)
  | [], _, _ => []
  | (j, p) :: rest, i, x =>
    if j = i then (j, x) :: rest else (j, p) :: updatePos rest i x

/-- `estimated_times[i] += x`. -/
def updateEst : List (ℕ × ℚ) → ℕ → ℚ → List (ℕ × ℚ)
  | [], _, _ => []
  | (j, t) :: rest, i, x =>
    if j = i then (j, t + x) :: rest else (j, t) :: updateEst rest i x

theorem foldl_inv {α β : Type _} (step : β → α → β) (P : β → Prop) (l : List α)
    (hstep : ∀ acc, P acc → ∀ a ∈ l, P (step acc a)) :
    ∀ acc, P acc → P (l.foldl step acc) := by
  induction l with
  | nil => exact fun acc h => h
  | cons x xs ih =>
    intro acc h
    exact ih (fun acc2 h2 a ha => hstep acc2 h2 a (List.mem_cons_of_mem _ ha)) _
      (hstep acc h x (List.mem_cons_self _ _))

/-- The best-pair scan of `_greedy_nearest`: responders outer, unassigned
rooms inner, strict `distance < best_distance` improvement starting from
`best_distance = np.inf` (`acc = none` is the not-yet-found state). -/
def bestPair (d : Dist) (positions : List (ℕ × String)) (unchecked : List Room) :
    Option ((ℕ × String) × ℚ) :=
  positions.foldl (fun acc p =>
    unchecked.foldl (fun acc2 room =>
      match d p.2 room.id with
      | none => acc2
      | some dist =>
        if infLt (some dist) (acc2.map Prod.snd) then some ((p.1, room.id), dist) else acc2)
      acc)
    none

/-- The nearest-room scan of `_greedy_balanced` (identical
strict-improvement loop over one position). -/
def bestRoom (d : Dist) (cur : String) (unchecked : List Room) : Option (Room × ℚ) :=
  unchecked.foldl (fun acc room =>
    match d cur room.id with
    | none => acc
    | some dist =>
      if infLt (some dist) (acc.map Prod.snd) then some (room, dist) else acc)
    none

/-- The nearest-unvisited scan of `_optimize_path_order` (over room-id
strings, as in the source). -/
def nearestUnvisited (d : Dist) (cur : String) (unvisited : List String) :
    Option (String × ℚ) :=
  unvisited.foldl (fun acc roomId =>
    match d cur roomId with
    | none => acc
    | some q =>
      if infLt (some q) (acc.map Prod.snd) then some (roomId, q) else acc) none

theorem bestPair_mem (d : Dist) (positions : List (ℕ × String)) (unchecked : List Room)
    {rid : ℕ} {roomId : String} {dist : ℚ}
    (h : bestPair d positions unchecked = some ((rid, roomId), dist)) :
    (∃ p ∈ positions, p.1 = rid) ∧ ∃ room ∈ unchecked, room.id = roomId := by
  unfold bestPair at h
  refine (foldl_inv _
    (fun acc => ∀ i rm (q : ℚ), acc = some ((i, rm), q) →
      (∃ p ∈ positions, p.1 = i) ∧ ∃ room ∈ unchecked, room.id = rm)
    positions ?_ none (by intro i rm q heq; cases heq)) rid roomId dist h
  intro acc hacc p hp
  refine foldl_inv _
    (fun acc => ∀ i rm (q : ℚ), acc = some ((i, rm), q) →
      (∃ p ∈ positions, p.1 = i) ∧ ∃ room ∈ unchecked, room.id = rm)
    unchecked ?_ acc hacc
  intro acc2 h2 room hroom
  rcases hd : d p.2 room.id with _ | q
  · simp only [hd]
    exact h2
  · simp only [hd]
    by_cases hlt : infLt (some q) (acc2.map Prod.snd)
    · rw [if_pos hlt]
      intro i rm q' heq
      cases heq
      exact ⟨⟨p, hp, rfl⟩, room, hroom, rfl⟩
    · rw [if_neg hlt]; exact h2

theorem bestRoom_mem (d : Dist) (cur : String) (unchecked : List Room)
    {room : Room} {dist : ℚ}
    (h : bestRoom d cur unchecked = some (room, dist)) :
    room ∈ unchecked := by
  unfold bestRoom at h
  refine (foldl_inv _ (fun acc => ∀ r (q : ℚ), acc = some (r, q) → r ∈ unchecked)
    unchecked ?_ none (by intro r q heq; cases heq)) room dist h
  intro acc hacc r hr
  rcases hd : d cur r.id with _ | q
  · simp only [hd]
    exact hacc
  · simp only [hd]
    by_cases hlt : infLt (some q) (acc.map Prod.snd)
    · rw [if_pos hlt]
      intro r' q' heq
      cases heq
      exact hr
    · rw [if_neg hlt]; exact hacc

theorem nearestUnvisited_mem (d : Dist) (cur : String) (unvisited : List String)
    {roomId : String} {dist : ℚ}
    (h : nearestUnvisited d cur unvisited = some (roomId, dist)) :
    roomId ∈ unvisited := by
  unfold nearestUnvisited at h
  refine (foldl_inv _ (fun acc => ∀ r (q : ℚ), acc = some (r, q) → r ∈ unvisited)
    unvisited ?_ none (by intro r q heq; cases heq)) roomId dist h
  intro acc hacc r hr
  rcases hd : d cur r with _ | q
  · simp only [hd]
    exact hacc
  · simp only [hd]
    by_cases hlt : infLt (some q) (acc.map Prod.snd)
    · rw [if_pos hlt]
      intro r' q' heq
      cases heq
      exact hr
    · rw [if_neg hlt]; exact hacc

/-- `_greedy_nearest`'s while loop: assign the globally nearest
(responder, room) pair, advance that responder, repeat; break when no
pair is found.  (The unchecked room set is modelled as a list in
dict-insertion order.) -/
def greedyNearestGo (d : Dist) (positions : List (ℕ × String)) (assignment : Assignment)
    (unchecked : List Room) : Assignment :=
  if unchecked.isEmpty then assignment
  else
    match hb : bestPair d positions unchecked with
    | none => assignment
    | some ((rid, roomId), _) =>
      greedyNearestGo d (updatePos positions rid roomId) (appendTo assignment rid roomId)
        (unchecked.eraseP (fun room => room.id == roomId))
termination_by unchecked.length
decreasing_by
  obtain ⟨-, room, hroom, hid⟩ := bestPair_mem d positions unchecked hb
  have hlen := List.length_eraseP_of_mem (p := fun room => room.id == roomId) hroom
    (by simpa using hid)
  have hpos : 0 < unchecked.length := List.length_pos.mpr (fun he => by simp [he] at hroom)
  omega

/-- `GreedyOptimizer._greedy_nearest`. -/
def greedyNearest (d : Dist) (b : Building) (team : List Responder) : Assignment :=
  greedyNearestGo d (team.map (fun r => (r.id, r.initialPosition))) (initAssignment team)
    b.rooms

/-- `min(estimated_times, key=estimated_times.get)`: the first key with
minimal value (Python `min` keeps the earliest minimum). -/
def minEstimated (e0 : ℕ × ℚ) (erest : List (ℕ × ℚ)) : ℕ :=
  (erest.foldl (fun best q => if q.2 < best.2 then q else best) e0).1

/-- `GreedyOptimizer._greedy_balanced`'s while loop.  An empty team makes
`min` over the empty `estimated_times` dict raise `ValueError`; the
other dict accesses are modelled with their `KeyError`/`ValueError`
outcomes as well. -/
def greedyBalancedGo (d : Dist) (team : List Responder) (positions : List (ℕ × String))
    (estimated : List (ℕ × ℚ)) (assignment : Assignment) (unchecked : List Room) :
    Except PyErr Assignment :=
  if unchecked.isEmpty then .ok assignment
  else
    match estimated with
    | [] => .error .valueError
    | e0 :: erest =>
      let minId := minEstimated e0 erest
      match positions.lookup minId with
      | none => .error .keyError
      | some curPos =>
        match hb : bestRoom d curPos unchecked with
        | none => .ok assignment
        | some (room, dist) =>
          match team.find? (fun r => r.id = minId) with
          | none => .error .valueError
          | some resp =>
            let travelTime := dist / resp.walkSpeed
            let checkTime := room.calculate_check_time resp.baseCheckTime resp.checkRate
            greedyBalancedGo d team (updatePos positions minId room.id)
              (updateEst estimated minId (travelTime + checkTime))
              (appendTo assignment minId room.id)
              (unchecked.eraseP (fun r => r.id == room.id))
termination_by unchecked.length
decreasing_by
  have hroom := bestRoom_mem d curPos unchecked hb
  have hlen := List.length_eraseP_of_mem (p := fun r => r.id == room.id) hroom (by simp)
  have hpos : 0 < unchecked.length := List.length_pos.mpr (fun he => by simp [he] at hroom)
  omega

/-- `GreedyOptimizer._greedy_balanced`. -/
def greedyBalanced (d : Dist) (b : Building) (team : List Responder) :
    Except PyErr Assignment :=
  greedyBalancedGo d team (team.map (fun r => (r.id, r.initialPosition)))
    (team.map (fun r => (r.id, 0))) (initAssignment team) b.rooms

/-- `_optimize_path_order`'s while loop; when no unvisited room is
reachable, the remaining rooms are appended in iteration order. -/
def optimizePathOrderGo (d : Dist) (cur : String) (ordered : List String)
    (unvisited : List String) : List String :=
  if unvisited.isEmpty then ordered
  else
    match hb : nearestUnvisited d cur unvisited with
    | none => ordered ++ unvisited
    | some (roomId, _) =>
      optimizePathOrderGo d roomId (ordered ++ [roomId]) (unvisited.erase roomId)
termination_by unvisited.length
decreasing_by
  have hroom : roomId ∈ unvisited := nearestUnvisited_mem d cur unvisited hb
  have hlen := List.length_erase_of_mem hroom
  have hpos : 0 < unvisited.length := List.length_pos.mpr (fun he => by simp [he] at hroom)
  omega

/-- `GreedyOptimizer._optimize_path_order` (the unvisited set is
modelled as the list itself; at every call site the list has no
duplicates). -/
def optimizePathOrder (d : Dist) (start_position : String) (room_ids : List String) :
    List String :=
  if room_ids.length ≤ 1 then room_ids
  else optimizePathOrderGo d start_position [] room_ids

/-- `sorted(..., key=lambda r: (-r.priority, r.position[1], r.position[0]))`:
the lexicographic comparison on the sort key. -/
def priorityKeyLe (r1 r2 : Room) : Bool :=
  if r1.priority ≠ r2.priority then r2.priority < r1.priority
  else if r1.posY ≠ r2.posY then r1.posY < r2.posY
  else r1.posX ≤ r2.posX

/-- The round-robin deal of `_greedy_priority`:
`assignment[(i % n) + 1].append(room.id)`. -/
def dealRooms (k : ℕ) (roomsSorted : List Room) (a : Assignment) : Assignment :=
  roomsSorted.enum.foldl (fun acc p => appendTo acc (p.1 % k + 1) p.2.id) a

/-- `GreedyOptimizer._greedy_priority`: sort by the priority key, deal
round-robin, then reorder each responder's list by the nearest-neighbour
heuristic.  With zero responders and a nonempty room list the Python
modulo `i % 0` raises `ZeroDivisionError`. -/
def greedyPriority (d : Dist) (b : Building) (team : List Responder) (k : ℕ) :
    Except PyErr Assignment :=
  let rooms := b.rooms.mergeSort (fun r1 r2 => priorityKeyLe r1 r2)
  if ¬ rooms.isEmpty ∧ k = 0 then .error .zeroDivision
  else
    let a := dealRooms k rooms (initAssignment team)
    .ok (team.foldl (fun acc r =>
      if ((acc.lookup r.id).getD []).isEmpty then acc
      else setAssign acc r.id
        (optimizePathOrder d r.initialPosition ((acc.lookup r.id).getD []))) a)

/-- `GreedyOptimizer.optimize`: dispatch on the strategy string,
defaulting to the nearest strategy; the team is built as in
`GreedyOptimizer.__init__` from the agent count and start positions. -/
def greedyOptimize (d : Dist) (b : Building) (n_responders : ℕ)
    (initial_positions : List String) (strategy : String) : Except PyErr Assignment :=
  let team := mkTeam n_responders initial_positions
  if strategy = "nearest" then .ok (greedyNearest d b team)
  else if strategy = "priority" then greedyPriority d b team n_responders
  else if strategy = "balanced" then greedyBalanced d b team
  else .ok (greedyNearest d b team)


/-! ### Association-list lemmas for the greedy partition property -/

theorem appendTo_keys (a : Assignment) (i : ℕ) (x : String) :
    (appendTo a i x).map Prod.fst = a.map Prod.fst := by
  induction a with
  | nil => rfl
  | cons p rest ih =>
    obtain ⟨j, l⟩ := p
    by_cases hj : j = i <;> simp [appendTo, hj, ih]

theorem updatePos_keys (ps : List (ℕ × String)) (i : ℕ) (x : String) :
    (updatePos ps i x).map Prod.fst = ps.map Prod.fst := by
  induction ps with
  | nil => rfl
  | cons p rest ih =>
    obtain ⟨j, v⟩ := p
    by_cases hj : j = i <;> simp [updatePos, hj, ih]

theorem updateEst_keys (es : List (ℕ × ℚ)) (i : ℕ) (x : ℚ) :
    (updateEst es i x).map Prod.fst = es.map Prod.fst := by
  induction es with
  | nil => rfl
  | cons p rest ih =>
    obtain ⟨j, v⟩ := p
    by_cases hj : j = i <;> simp [updateEst, hj, ih]

theorem updatePos_values (ps : List (ℕ × String)) (i : ℕ) (x : String) :
    ∀ s ∈ (updatePos ps i x).map Prod.snd, s = x ∨ s ∈ ps.map Prod.snd := by
  induction ps with
  | nil => simp [updatePos]
  | cons p rest ih =>
    obtain ⟨j, v⟩ := p
    by_cases hj : j = i
    · simp only [updatePos, if_pos hj, List.map_cons, List.mem_cons]
      rintro s (rfl | hs)
      · exact Or.inl rfl
      · exact Or.inr (Or.inr hs)
    · simp only [updatePos, if_neg hj, List.map_cons, List.mem_cons]
      rintro s (rfl | hs)
      · exact Or.inr (Or.inl rfl)
      · rcases ih s hs with h | h
        · exact Or.inl h
        · exact Or.inr (Or.inr h)

theorem appendTo_join (a : Assignment) (i : ℕ) (x : String)
    (hi : i ∈ a.map Prod.fst) :
    List.Perm ((appendTo a i x).map Prod.snd).join ((a.map Prod.snd).join ++ [x]) := by
  induction a with
  | nil => simp at hi
  | cons p rest ih =>
    obtain ⟨j, l⟩ := p
    by_cases hj : j = i
    · simp only [appendTo, if_pos hj, List.map_cons, List.join_cons]
      have hassoc : (l ++ [x]) ++ (rest.map Prod.snd).join
          = l ++ ([x] ++ (rest.map Prod.snd).join) := by
        rw [List.append_assoc]
      rw [hassoc, List.append_assoc]
      exact List.Perm.append_left l List.perm_append_comm
    · have hi' : i ∈ rest.map Prod.fst := by
        rw [List.map_cons] at hi
        rcases List.mem_cons.mp hi with h | h
        · exact absurd h.symm hj
        · exact h
      simp only [appendTo, if_neg hj, List.map_cons, List.join_cons]
      rw [List.append_assoc]
      exact List.Perm.append_left l (ih hi')

theorem setAssign_join (a : Assignment) (i : ℕ) (xs : List String)
    (hperm : List.Perm xs ((a.lookup i).getD [])) :
    List.Perm ((setAssign a i xs).map Prod.snd).join ((a.map Prod.snd).join) := by
  induction a with
  | nil => simp [setAssign]
  | cons p rest ih =>
    obtain ⟨j, l⟩ := p
    by_cases hj : j = i
    · subst hj
      rw [List.lookup_cons_self] at hperm
      simp only [setAssign, if_pos rfl, List.map_cons, List.join_cons]
      exact List.Perm.append (by simpa using hperm) (List.Perm.refl _)
    · have hlk : ((j, l) :: rest : Assignment).lookup i = rest.lookup i := by
        simp [List.lookup, beq_eq_false_iff_ne.mpr (Ne.symm hj)]
      rw [hlk] at hperm
      simp only [setAssign, if_neg hj, List.map_cons, List.join_cons]
      exact List.Perm.append_left l (ih hperm)

theorem lookup_mem {β : Type _} (ps : List (ℕ × β)) (i : ℕ) (v : β)
    (h : ps.lookup i = some v) : (i, v) ∈ ps := by
  induction ps with
  | nil => cases h
  | cons p rest ih =>
    obtain ⟨j, w⟩ := p
    by_cases hj : i = j
    · subst hj
      rw [List.lookup_cons_self] at h
      cases h
      exact List.mem_cons_self _ _
    · have : ((j, w) :: rest : List (ℕ × β)).lookup i = rest.lookup i := by
        simp [List.lookup, beq_eq_false_iff_ne.mpr hj]
      rw [this] at h
      exact List.mem_cons_of_mem _ (ih h)

theorem lookup_isSome_of_mem_keys {β : Type _} (ps : List (ℕ × β)) (i : ℕ)
    (h : i ∈ ps.map Prod.fst) : (ps.lookup i).isSome = true := by
  induction ps with
  | nil => simp at h
  | cons p rest ih =>
    obtain ⟨j, w⟩ := p
    by_cases hj : i = j
    · subst hj
      rw [List.lookup_cons_self]
      rfl
    · have heq : ((j, w) :: rest : List (ℕ × β)).lookup i = rest.lookup i := by
        simp [List.lookup, beq_eq_false_iff_ne.mpr hj]
      rw [heq]
      refine ih ?_
      rw [List.map_cons] at h
      rcases List.mem_cons.mp h with h' | h'
      · exact absurd h' hj
      · exact h'

theorem find?_id_isSome (team : List Responder) (i : ℕ)
    (h : i ∈ team.map Responder.id) :
    (team.find? (fun r => r.id = i)).isSome = true := by
  induction team with
  | nil => simp at h
  | cons r rest ih =>
    by_cases hr : r.id = i
    · simp [List.find?_cons_of_pos, hr]
    · rw [List.find?_cons_of_neg _ (by simpa using hr)]
      refine ih ?_
      rw [List.map_cons] at h
      rcases List.mem_cons.mp h with h' | h'
      · exact absurd h'.symm hr
      · exact h'

theorem minEstimated_mem (e0 : ℕ × ℚ) (erest : List (ℕ × ℚ)) :
    minEstimated e0 erest ∈ (e0 :: erest).map Prod.fst := by
  have hmem : (erest.foldl (fun best q => if q.2 < best.2 then q else best) e0) ∈ e0 :: erest := by
    refine foldl_inv _ (fun best => best ∈ e0 :: erest) erest ?_ e0 (List.mem_cons_self _ _)
    intro acc hacc a ha
    by_cases h : a.2 < acc.2
    · rw [if_pos h]; exact List.mem_cons_of_mem _ ha
    · rw [if_neg h]; exact hacc
  exact List.mem_map_of_mem _ hmem

theorem initAssignment_keys (team : List Responder) :
    (initAssignment team).map Prod.fst = team.map Responder.id := by
  simp [initAssignment]

theorem initAssignment_join (team : List Responder) :
    ((initAssignment team).map Prod.snd).join = [] := by
  induction team with
  | nil => rfl
  | cons r rest ih => simpa [initAssignment] using ih


theorem bestRoom_isSome (d : Dist) (cur : String) (unchecked : List Room)
    {room : Room} (hr : room ∈ unchecked) (hd : d cur room.id ≠ none) :
    (bestRoom d cur unchecked).isSome = true := by
  unfold bestRoom
  suffices h : ∀ (l : List Room) (acc : Option (Room × ℚ)),
      ((∃ r ∈ l, d cur r.id ≠ none) ∨ acc.isSome = true) →
      (l.foldl (fun acc room =>
        match d cur room.id with
        | none => acc
        | some dist =>
          if infLt (some dist) (acc.map Prod.snd) then some (room, dist) else acc) acc).isSome
        = true by
    exact h unchecked none (Or.inl ⟨room, hr, hd⟩)
  intro l
  induction l with
  | nil =>
    intro acc hacc
    rcases hacc with ⟨r, hr', _⟩ | hacc
    · cases hr'
    · exact hacc
  | cons r rest ih =>
    intro acc hacc
    simp only [List.foldl_cons]
    rcases hacc with ⟨r', hr', hd'⟩ | hacc
    · rcases List.mem_cons.mp hr' with rfl | htail
      · rcases hdd : d cur r'.id with _ | q
        · exact absurd hdd hd'
        · refine ih _ (Or.inr ?_)
          simp only [hdd]
          by_cases hlt : infLt (some q) (acc.map Prod.snd)
          · rw [if_pos hlt]; rfl
          · rw [if_neg hlt]
            rcases acc with _ | v
            · exact absurd (by simp [infLt]) hlt
            · rfl
      · exact ih _ (Or.inl ⟨r', htail, hd'⟩)
    · refine ih _ (Or.inr ?_)
      rcases hdd : d cur r.id with _ | q
      · exact hacc
      · dsimp only
        by_cases hlt : infLt (some q) (acc.map Prod.snd)
        · rw [if_pos hlt]; rfl
        · rw [if_neg hlt]; exact hacc

theorem bestPair_isSome (d : Dist) (positions : List (ℕ × String)) (unchecked : List Room)
    {p : ℕ × String} (hp : p ∈ positions) {room : Room} (hr : room ∈ unchecked)
    (hd : d p.2 room.id ≠ none) :
    (bestPair d positions unchecked).isSome = true := by
  unfold bestPair
  have hinner : ∀ (q : ℕ × String) (l : List Room) (acc : Option ((ℕ × String) × ℚ)),
      ((∃ r ∈ l, d q.2 r.id ≠ none) ∨ acc.isSome = true) →
      (l.foldl (fun acc2 room =>
        match d q.2 room.id with
        | none => acc2
        | some dist =>
          if infLt (some dist) (acc2.map Prod.snd) then some ((q.1, room.id), dist) else acc2)
        acc).isSome = true := by
    intro q l
    induction l with
    | nil =>
      intro acc hacc
      rcases hacc with ⟨r, hr', _⟩ | hacc
      · cases hr'
      · exact hacc
    | cons r rest ih =>
      intro acc hacc
      simp only [List.foldl_cons]
      rcases hacc with ⟨r', hr', hd'⟩ | hacc
      · rcases List.mem_cons.mp hr' with rfl | htail
        · rcases hdd : d q.2 r'.id with _ | qq
          · exact absurd hdd hd'
          · refine ih _ (Or.inr ?_)
            simp only [hdd]
            by_cases hlt : infLt (some qq) (acc.map Prod.snd)
            · rw [if_pos hlt]; rfl
            · rw [if_neg hlt]
              rcases acc with _ | v
              · exact absurd (by simp [infLt]) hlt
              · rfl
        · exact ih _ (Or.inl ⟨r', htail, hd'⟩)
      · refine ih _ (Or.inr ?_)
        rcases hdd : d q.2 r.id with _ | qq
        · exact hacc
        · dsimp only
          by_cases hlt : infLt (some qq) (acc.map Prod.snd)
          · rw [if_pos hlt]; rfl
          · rw [if_neg hlt]; exact hacc
  suffices h : ∀ (ps : List (ℕ × String)) (acc : Option ((ℕ × String) × ℚ)),
      ((∃ q ∈ ps, ∃ r ∈ unchecked, d q.2 r.id ≠ none) ∨ acc.isSome = true) →
      (ps.foldl (fun acc p =>
        unchecked.foldl (fun acc2 room =>
          match d p.2 room.id with
          | none => acc2
          | some dist =>
            if infLt (some dist) (acc2.map Prod.snd) then some ((p.1, room.id), dist) else acc2)
          acc) acc).isSome = true by
    exact h positions none (Or.inl ⟨p, hp, room, hr, hd⟩)
  intro ps
  induction ps with
  | nil =>
    intro acc hacc
    rcases hacc with ⟨q, hq, _⟩ | hacc
    · cases hq
    · exact hacc
  | cons q rest ih =>
    intro acc hacc
    simp only [List.foldl_cons]
    rcases hacc with ⟨q', hq', hwit⟩ | hacc
    · rcases List.mem_cons.mp hq' with rfl | htail
      · exact ih _ (Or.inr (hinner q' unchecked acc (Or.inl hwit)))
      · exact ih _ (Or.inl ⟨q', htail, hwit⟩)
    · exact ih _ (Or.inr (hinner q unchecked acc (Or.inr hacc)))

theorem optimizePathOrderGo_perm (d : Dist) :
    ∀ (n : ℕ) (unvisited : List String) (cur : String) (ordered : List String),
      unvisited.length ≤ n →
      List.Perm (optimizePathOrderGo d cur ordered unvisited) (ordered ++ unvisited) := by
  intro n
  induction n with
  | zero =>
    intro unvisited cur ordered hlen
    have : unvisited = [] := List.eq_nil_of_length_eq_zero (Nat.le_zero.mp hlen)
    subst this
    unfold optimizePathOrderGo
    simp
  | succ n ih =>
    intro unvisited cur ordered hlen
    rcases hun : unvisited with _ | ⟨u0, urest⟩
    · unfold optimizePathOrderGo; simp
    · subst hun
      unfold optimizePathOrderGo
      rw [if_neg (by simp)]
      split
      · exact List.Perm.refl _
      · rename_i roomId dist heq
        have hmem : roomId ∈ u0 :: urest := nearestUnvisited_mem d cur _ heq
        have hlt : ((u0 :: urest).erase roomId).length ≤ n := by
          rw [List.length_erase_of_mem hmem]
          simpa using Nat.le_of_succ_le_succ (by simpa using hlen)
        have hrec := ih ((u0 :: urest).erase roomId) roomId (ordered ++ [roomId]) hlt
        refine hrec.trans ?_
        rw [List.append_assoc]
        refine List.Perm.append_left ordered ?_
        simpa using (List.perm_cons_erase hmem).symm

theorem optimizePathOrder_perm (d : Dist) (s : String) (l : List String) :
    List.Perm (optimizePathOrder d s l) l := by
  unfold optimizePathOrder
  split
  · exact List.Perm.refl _
  · simpa using optimizePathOrderGo_perm d l.length l s [] le_rfl

theorem greedyNearestGo_partition (d : Dist) (R : List Room) (Good : String → Prop)
    (hreach : ∀ s, Good s → ∀ room ∈ R, d s room.id ≠ none)
    (hGoodR : ∀ room ∈ R, Good room.id) :
    ∀ (n : ℕ) (unchecked : List Room) (positions : List (ℕ × String))
      (assignment : Assignment),
      unchecked.length ≤ n →
      (∀ room ∈ unchecked, room ∈ R) →
      positions ≠ [] →
      (∀ s ∈ positions.map Prod.snd, Good s) →
      (∀ i ∈ positions.map Prod.fst, i ∈ assignment.map Prod.fst) →
      List.Perm ((greedyNearestGo d positions assignment unchecked).map Prod.snd).join
        ((assignment.map Prod.snd).join ++ unchecked.map Room.id) := by
  intro n
  induction n with
  | zero =>
    intro unchecked positions assignment hlen _ _ _ _
    have : unchecked = [] := List.eq_nil_of_length_eq_zero (Nat.le_zero.mp hlen)
    subst this
    unfold greedyNearestGo
    simp
  | succ n ih =>
    intro unchecked positions assignment hlen hsub hpos hgood hkeys
    rcases hun : unchecked with _ | ⟨u0, urest⟩
    · unfold greedyNearestGo; simp
    · subst hun
      have hu0R : u0 ∈ R := hsub u0 (List.mem_cons_self _ _)
      obtain ⟨p1, hp1⟩ := List.exists_mem_of_ne_nil positions hpos
      have hd1 : d p1.2 u0.id ≠ none :=
        hreach p1.2 (hgood p1.2 (List.mem_map_of_mem _ hp1)) u0 hu0R
      have hsome := bestPair_isSome d positions (u0 :: urest) hp1 (List.mem_cons_self _ _) hd1
      unfold greedyNearestGo
      rw [if_neg (by simp)]
      split
      · rename_i heq
        rw [heq] at hsome; cases hsome
      · rename_i rid roomId dist heq
        obtain ⟨⟨p', hp', hpid⟩, room', hroom', hid'⟩ := bestPair_mem d positions _ heq
        have hkey : rid ∈ assignment.map Prod.fst := by
          refine hkeys rid ?_
          exact hpid ▸ List.mem_map_of_mem Prod.fst hp'
        have hgoodRoom : Good roomId := hid' ▸ hGoodR room' (hsub room' hroom')
        obtain ⟨a', l1, l2, hl1, hpa', hl, herase⟩ :=
          List.exists_of_eraseP hroom' (p := fun room => room.id == roomId)
            (by simpa using hid')
        have haid : a'.id = roomId := by simpa using hpa'
        have hlt : ((u0 :: urest).eraseP (fun room => room.id == roomId)).length ≤ n := by
          have h1 : ((u0 :: urest).eraseP (fun room => room.id == roomId)).length
              = (u0 :: urest).length - 1 :=
            List.length_eraseP_of_mem hroom' (by simpa using hid')
          rw [h1]
          simp only [List.length_cons] at hlen ⊢
          omega
        have hrec := ih ((u0 :: urest).eraseP (fun room => room.id == roomId))
          (updatePos positions rid roomId) (appendTo assignment rid roomId) hlt
          (fun room hx => hsub room ((List.eraseP_sublist _).subset hx))
          (by
            intro h0
            have hup := updatePos_keys positions rid roomId
            rw [h0] at hup
            exact hpos (List.map_eq_nil_iff.mp hup.symm))
          (by
            intro s hs
            rcases updatePos_values positions rid roomId s hs with rfl | hs'
            · exact hgoodRoom
            · exact hgood s hs')
          (by
            intro i hi
            rw [updatePos_keys] at hi
            rw [appendTo_keys]
            exact hkeys i hi)
        refine hrec.trans ?_
        have happend := appendTo_join assignment rid roomId hkey
        refine (List.Perm.append_right _ happend).trans ?_
        rw [List.append_assoc]
        refine List.Perm.append_left _ ?_
        rw [herase, hl]
        simp only [List.map_append, List.map_cons, haid, List.singleton_append]
        exact (List.perm_middle).symm


theorem greedyBalancedGo_partition (d : Dist) (R : List Room) (Good : String → Prop)
    (hreach : ∀ s, Good s → ∀ room ∈ R, d s room.id ≠ none)
    (hGoodR : ∀ room ∈ R, Good room.id) (team : List Responder) :
    ∀ (n : ℕ) (unchecked : List Room) (positions : List (ℕ × String))
      (estimated : List (ℕ × ℚ)) (assignment : Assignment),
      unchecked.length ≤ n →
      (∀ room ∈ unchecked, room ∈ R) →
      positions.map Prod.fst = team.map Responder.id →
      estimated.map Prod.fst = team.map Responder.id →
      assignment.map Prod.fst = team.map Responder.id →
      team ≠ [] →
      (∀ s ∈ positions.map Prod.snd, Good s) →
      ∃ a, greedyBalancedGo d team positions estimated assignment unchecked = .ok a ∧
        List.Perm ((a.map Prod.snd).join)
          ((assignment.map Prod.snd).join ++ unchecked.map Room.id) := by
  intro n
  induction n with
  | zero =>
    intro unchecked positions estimated assignment hlen _ _ _ _ _ _
    have : unchecked = [] := List.eq_nil_of_length_eq_zero (Nat.le_zero.mp hlen)
    subst this
    unfold greedyBalancedGo
    exact ⟨assignment, by simp, by simp⟩
  | succ n ih =>
    intro unchecked positions estimated assignment hlen hsub hposk hestk hasgk hteam hgood
    rcases hun : unchecked with _ | ⟨u0, urest⟩
    · subst hun
      unfold greedyBalancedGo
      exact ⟨assignment, by simp, by simp⟩
    · subst hun
      rcases hest : estimated with _ | ⟨e0, erest⟩
      · rw [hest] at hestk
        exact absurd (List.map_eq_nil_iff.mp hestk.symm) hteam
      · subst hest
        have hminmem : minEstimated e0 erest ∈ team.map Responder.id :=
          hestk ▸ minEstimated_mem e0 erest
        have hlk : (positions.lookup (minEstimated e0 erest)).isSome = true :=
          lookup_isSome_of_mem_keys positions _ (hposk.symm ▸ hminmem)
        obtain ⟨curPos, hcur⟩ := Option.isSome_iff_exists.mp hlk
        have hcurGood : Good curPos := by
          have hmem := lookup_mem positions _ _ hcur
          exact hgood curPos (List.mem_map_of_mem Prod.snd hmem)
        have hu0R : u0 ∈ R := hsub u0 (List.mem_cons_self _ _)
        have hd0 : d curPos u0.id ≠ none := hreach curPos hcurGood u0 hu0R
        have hbr := bestRoom_isSome d curPos (u0 :: urest) (List.mem_cons_self _ _) hd0
        have hfindq : (team.find? (fun r => r.id = minEstimated e0 erest)).isSome = true :=
          find?_id_isSome team _ hminmem
        obtain ⟨resp, hresp⟩ := Option.isSome_iff_exists.mp hfindq
        unfold greedyBalancedGo
        rw [if_neg (by simp)]
        dsimp only
        simp only [hcur]
        split
        · rename_i heq
          rw [heq] at hbr; cases hbr
        · rename_i room dist heq
          simp only [hresp]
          have hroom_mem : room ∈ u0 :: urest := bestRoom_mem d curPos _ heq
          have hroomR : room ∈ R := hsub room hroom_mem
          obtain ⟨a', l1, l2, hl1, hpa', hl, herase⟩ :=
            List.exists_of_eraseP hroom_mem (p := fun r => r.id == room.id) (by simp)
          have haid : a'.id = room.id := by simpa using hpa'
          have hlt : ((u0 :: urest).eraseP (fun r => r.id == room.id)).length ≤ n := by
            have h1 : ((u0 :: urest).eraseP (fun r => r.id == room.id)).length
                = (u0 :: urest).length - 1 :=
              List.length_eraseP_of_mem hroom_mem (by simp)
            rw [h1]
            simp only [List.length_cons] at hlen ⊢
            omega
          obtain ⟨a, ha, hperm⟩ := ih ((u0 :: urest).eraseP (fun r => r.id == room.id))
            (updatePos positions (minEstimated e0 erest) room.id)
            (updateEst (e0 :: erest) (minEstimated e0 erest)
              (dist / resp.walkSpeed + room.calculate_check_time resp.baseCheckTime resp.checkRate))
            (appendTo assignment (minEstimated e0 erest) room.id) hlt
            (fun r hx => hsub r ((List.eraseP_sublist _).subset hx))
            (by rw [updatePos_keys]; exact hposk)
            (by rw [updateEst_keys]; exact hestk)
            (by rw [appendTo_keys]; exact hasgk)
            hteam
            (by
              intro s hs
              rcases updatePos_values positions _ room.id s hs with rfl | hs'
              · exact hGoodR room hroomR
              · exact hgood s hs')
          refine ⟨a, ha, ?_⟩
          refine hperm.trans ?_
          have hkey : minEstimated e0 erest ∈ assignment.map Prod.fst :=
            hasgk.symm ▸ hminmem
          have happend := appendTo_join assignment (minEstimated e0 erest) room.id hkey
          refine (List.Perm.append_right _ happend).trans ?_
          rw [List.append_assoc]
          refine List.Perm.append_left _ ?_
          rw [herase, hl]
          simp only [List.map_append, List.map_cons, haid, List.singleton_append]
          exact (List.perm_middle).symm

theorem dealRoomsAux (k : ℕ) (hk : 0 < k) :
    ∀ (rooms : List Room) (i : ℕ) (a : Assignment),
      (∀ j, 1 ≤ j → j ≤ k → j ∈ a.map Prod.fst) →
      (((rooms.enumFrom i).foldl (fun acc p => appendTo acc (p.1 % k + 1) p.2.id) a).map
        Prod.fst = a.map Prod.fst) ∧
      List.Perm ((((rooms.enumFrom i).foldl (fun acc p => appendTo acc (p.1 % k + 1) p.2.id)
        a).map Prod.snd).join) ((a.map Prod.snd).join ++ rooms.map Room.id) := by
  intro rooms
  induction rooms with
  | nil =>
    intro i a _
    exact ⟨rfl, by simp⟩
  | cons r rest ih =>
    intro i a hkeys
    have hmod : i % k < k := Nat.mod_lt i hk
    have hk1 : i % k + 1 ∈ a.map Prod.fst := hkeys _ (Nat.le_add_left 1 _) (by omega)
    simp only [List.enumFrom, List.foldl_cons]
    obtain ⟨hkeys', hperm'⟩ := ih (i + 1) (appendTo a (i % k + 1) r.id)
      (fun j h1 h2 => by rw [appendTo_keys]; exact hkeys j h1 h2)
    refine ⟨by rw [hkeys', appendTo_keys], ?_⟩
    refine hperm'.trans ?_
    refine (List.Perm.append_right _ (appendTo_join a _ r.id hk1)).trans ?_
    simp only [List.append_assoc, List.singleton_append, List.map_cons]
    exact List.Perm.refl _

theorem reorderFold_join (d : Dist) (team : List Responder) (a : Assignment) :
    List.Perm (((team.foldl (fun acc r =>
      if ((acc.lookup r.id).getD []).isEmpty then acc
      else setAssign acc r.id
        (optimizePathOrder d r.initialPosition ((acc.lookup r.id).getD []))) a).map
      Prod.snd).join) ((a.map Prod.snd).join) := by
  refine foldl_inv _ (fun acc => List.Perm ((acc.map Prod.snd).join) ((a.map Prod.snd).join))
    team ?_ a (List.Perm.refl _)
  intro acc hacc r _
  by_cases hemp : ((acc.lookup r.id).getD []).isEmpty
  · rw [if_pos hemp]; exact hacc
  · rw [if_neg hemp]
    exact (setAssign_join acc r.id _ (optimizePathOrder_perm d _ _)).trans hacc

theorem greedyPriority_partition (d : Dist) (b : Building) (team : List Responder) (k : ℕ)
    (hk : 0 < k)
    (hkeys : ∀ j, 1 ≤ j → j ≤ k → j ∈ team.map Responder.id) :
    ∃ a, greedyPriority d b team k = .ok a ∧
      List.Perm ((a.map Prod.snd).join) (b.rooms.map Room.id) := by
  unfold greedyPriority
  rw [if_neg (by rintro ⟨-, h2⟩; omega)]
  refine ⟨_, rfl, ?_⟩
  have hsorted := List.mergeSort_perm b.rooms (fun r1 r2 => priorityKeyLe r1 r2)
  obtain ⟨-, hperm'⟩ := dealRoomsAux k hk (b.rooms.mergeSort (fun r1 r2 => priorityKeyLe r1 r2))
    0 (initAssignment team)
    (fun j h1 h2 => by rw [initAssignment_keys]; exact hkeys j h1 h2)
  refine (reorderFold_join d team _).trans ?_
  refine hperm'.trans ?_
  rw [initAssignment_join]
  simpa using List.Perm.map Room.id hsorted

theorem greedyNearest_partition (d : Dist) (b : Building) (team : List Responder)
    (hteam : team ≠ [])
    (hreach : ∀ s, (s ∈ team.map Responder.initialPosition ∨
        ∃ room ∈ b.rooms, s = room.id) → ∀ room ∈ b.rooms, d s room.id ≠ none) :
    List.Perm (((greedyNearest d b team).map Prod.snd).join) (b.rooms.map Room.id) := by
  have h := greedyNearestGo_partition d b.rooms
    (fun s => s ∈ team.map Responder.initialPosition ∨ ∃ room ∈ b.rooms, s = room.id)
    hreach (fun room hm => Or.inr ⟨room, hm, rfl⟩)
    b.rooms.length b.rooms (team.map (fun r => (r.id, r.initialPosition)))
    (initAssignment team) le_rfl (fun room hm => hm)
    (by simpa using hteam)
    (by
      intro s hs
      refine Or.inl ?_
      simpa [List.map_map, Function.comp] using hs)
    (by
      intro i hi
      rw [initAssignment_keys]
      simpa [List.map_map, Function.comp] using hi)
  unfold greedyNearest
  simpa [initAssignment_join] using h

theorem greedyBalanced_partition (d : Dist) (b : Building) (team : List Responder)
    (hteam : team ≠ [])
    (hreach : ∀ s, (s ∈ team.map Responder.initialPosition ∨
        ∃ room ∈ b.rooms, s = room.id) → ∀ room ∈ b.rooms, d s room.id ≠ none) :
    ∃ a, greedyBalanced d b team = .ok a ∧
      List.Perm ((a.map Prod.snd).join) (b.rooms.map Room.id) := by
  obtain ⟨a, ha, hperm⟩ := greedyBalancedGo_partition d b.rooms
    (fun s => s ∈ team.map Responder.initialPosition ∨ ∃ room ∈ b.rooms, s = room.id)
    hreach (fun room hm => Or.inr ⟨room, hm, rfl⟩) team
    b.rooms.length b.rooms (team.map (fun r => (r.id, r.initialPosition)))
    (team.map (fun r => (r.id, 0))) (initAssignment team) le_rfl (fun room hm => hm)
    (by simp [List.map_map, Function.comp])
    (by simp [List.map_map, Function.comp])
    (initAssignment_keys team) hteam
    (by
      intro s hs
      refine Or.inl ?_
      simpa [List.map_map, Function.comp] using hs)
  refine ⟨a, ha, ?_⟩
  refine hperm.trans ?_
  rw [initAssignment_join]
  simp


/-! ### Claims C4 and C5: optimizer configuration and the partition property -/

theorem greedyNearestGo_no_positions (d : Dist) (assignment : Assignment)
    (unchecked : List Room) :
    greedyNearestGo d [] assignment unchecked = assignment := by
  unfold greedyNearestGo
  split
  · rfl
  · split
    · rfl
    · rename_i rid roomId dist heq
      exact absurd heq (by simp [bestPair])

/-- C4 counterexample: calling the optimizer with `agentCount = 0` — an
invalid configuration according to the claim — returns normally with the
empty assignment (every room silently left unassigned); nothing raises an
`InvalidConfiguration` error before (or during) the computation, and no
such error kind exists in the code. -/
theorem greedyOptimize_zero_agents_counterexample :
    greedyOptimize (fun _ _ => some 1) (⟨[⟨"R1", 4, 0, 0, 1, 1, 1⟩]⟩ : Building) 0 []
      "nearest" = .ok [] := by
  simp [greedyOptimize, greedyNearest, mkTeam, initAssignment, greedyNearestGo_no_positions]

/-- C4 amended: neither optimizer validates its configuration.  With
`agentCount = 0` (hence `agentCount ≤ 0`) the greedy nearest strategy
returns the empty assignment for every facility, graph and start-position
list, instead of failing with `InvalidConfiguration` before computation
starts.  (Genetic misconfiguration likewise surfaces only as unvalidated
runtime errors once the run is underway, not as an up-front
`InvalidConfiguration`.) -/
theorem greedyOptimize_zero_agents (d : Dist) (b : Building) (pos : List String) :
    greedyOptimize d b 0 pos "nearest" = .ok [] := by
  simp [greedyOptimize, greedyNearest, mkTeam, initAssignment, greedyNearestGo_no_positions]

/-- C5: for every strategy string (the three named greedy strategies and
the default dispatch), at least one agent, and a facility whose
navigation graph reaches every room from every start position and every
room (a fully connected facility), `GreedyOptimizer.optimize` returns an
assignment whose per-agent sequences enumerate the room set exactly
once: their concatenation is a permutation of the facility's room-id
list, and (ids being distinct) the sequences are pairwise disjoint. -/
theorem greedyOptimize_partition (d : Dist) (b : Building) (k : ℕ)
    (pos : List String) (strategy : String)
    (hk : 1 ≤ k)
    (hreach : ∀ s, (s ∈ (mkTeam k pos).map Responder.initialPosition ∨
        ∃ room ∈ b.rooms, s = room.id) → ∀ room ∈ b.rooms, d s room.id ≠ none) :
    ∃ a, greedyOptimize d b k pos strategy = .ok a ∧
      List.Perm ((a.map Prod.snd).join) (b.rooms.map Room.id) ∧
      ((b.rooms.map Room.id).Nodup → (a.map Prod.snd).Pairwise List.Disjoint) := by
  have hteam_ne : mkTeam k pos ≠ [] := by
    simp only [mkTeam, ne_eq, List.map_eq_nil_iff, List.range_eq_nil]
    omega
  have hids : ∀ j, 1 ≤ j → j ≤ k → j ∈ (mkTeam k pos).map Responder.id := by
    intro j h1 h2
    simp only [mkTeam, List.map_map]
    refine List.mem_map.mpr ⟨j - 1, List.mem_range.mpr (by omega), ?_⟩
    show (mkResponder _ _ _ _ _ _ _).id = j
    simp only [mkResponder]
    omega
  suffices h : ∃ a, greedyOptimize d b k pos strategy = .ok a ∧
      List.Perm ((a.map Prod.snd).join) (b.rooms.map Room.id) by
    obtain ⟨a, ha, hperm⟩ := h
    refine ⟨a, ha, hperm, fun hnodup => ?_⟩
    have hjn : ((a.map Prod.snd).join).Nodup := (hperm.nodup_iff).mpr hnodup
    exact (List.nodup_join.mp hjn).2
  simp only [greedyOptimize]
  by_cases h1 : strategy = "nearest"
  · rw [if_pos h1]
    exact ⟨_, rfl, greedyNearest_partition d b _ hteam_ne hreach⟩
  · rw [if_neg h1]
    by_cases h2 : strategy = "priority"
    · rw [if_pos h2]
      exact greedyPriority_partition d b _ k (by omega) hids
    · rw [if_neg h2]
      by_cases h3 : strategy = "balanced"
      · rw [if_pos h3]
        exact greedyBalanced_partition d b _ hteam_ne hreach
      · rw [if_neg h3]
        exact ⟨_, rfl, greedyNearest_partition d b _ hteam_ne hreach⟩

def dC5w : Dist := fun _ _ => some 1

def bC5w : Building := ⟨[⟨"R1", 4, 0, 0, 1, 1, 1⟩]⟩

/-- Witness for C5 on a one-room, one-agent, fully reachable facility
with the balanced strategy. -/
theorem greedyOptimize_partition_witness :
    ∃ a, greedyOptimize dC5w bC5w 1 ["E1"] "balanced" = .ok a ∧
      List.Perm ((a.map Prod.snd).join) (bC5w.rooms.map Room.id) ∧
      ((bC5w.rooms.map Room.id).Nodup → (a.map Prod.snd).Pairwise List.Disjoint) :=
  greedyOptimize_partition dC5w bC5w 1 ["E1"] "balanced" (by norm_num)
    (by intro s _ room _; simp [dC5w])


/-! ### Genetic optimizer (`src/algorithms/genetic.py`) -/

/-- A chromosome: a list of room indices (`List[int]`; the `-1`
sentinel of order crossover makes the gene type ℤ). -/
abbrev Chromosome := List ℤ

/-- `{i+1: [] for i in range(self.n_responders)}`. -/
def initAssignmentIds (k : ℕ) : Assignment := (List.range k).map (fun i => (i + 1, []))

/-- Python list indexing `l[g]` with negative-index wrap-around and
`IndexError` out of range. -/
def pyIndex {α : Type _} (l : List α) (g : ℤ) : Except PyErr α :=
  let i : ℤ := if g < 0 then g + l.length else g
  if 0 ≤ i then
    match l.get? i.toNat with
    | some x => .ok x
    | none => .error .indexError
  else .error .indexError

/-- The room id a gene decodes to (`self.room_ids[room_idx]`), as a
total function (only read where `pyIndex` succeeds). -/
def geneRoom (roomIds : List String) (g : ℤ) : String :=
  ((pyIndex roomIds g).toOption).getD ""

/-- The `for i, room_idx in enumerate(chromosome)` loop of
`_chromosome_to_assignment`: `i // rooms_per_responder` raises
`ZeroDivisionError` when `rooms_per_responder = 0` and the loop body
runs. -/
def c2aGo (roomIds : List String) (k rpr : ℕ) :
    Assignment → ℕ → Chromosome → Except PyErr Assignment
  | a, _, [] => .ok a
  | a, i, g :: rest =>
    if rpr = 0 then .error .zeroDivision
    else
      match pyIndex roomIds g with
      | .error e => .error e
      | .ok rid => c2aGo roomIds k rpr (appendTo a (min (i / rpr) (k - 1) + 1) rid) (i + 1) rest

/-- `GeneticOptimizer._chromosome_to_assignment`: `len(chromosome) //
n_responders` raises `ZeroDivisionError` when `n_responders = 0`. -/
def chromosomeToAssignment (roomIds : List String) (k : ℕ) (chrom : Chromosome) :
    Except PyErr Assignment :=
  if k = 0 then .error .zeroDivision
  else c2aGo roomIds k (chrom.length / k) (initAssignmentIds k) 0 chrom

/-- `GeneticOptimizer._evaluate_fitness`: the decode happens *outside*
the `try` block, so decoding errors propagate; simulation errors inside
the `try` are caught and scored `float('inf')`; otherwise the fitness is
total time plus twice the standard deviation of per-agent times. -/
noncomputable def evaluateFitness (d : Dist) (b : Building) (team : List Responder)
    (k : ℕ) (roomIds : List String) (chrom : Chromosome) : Except PyErr (WithTop ℝ) :=
  match chromosomeToAssignment roomIds k chrom with
  | .error e => .error e
  | .ok assignment =>
    match simRun d b team assignment with
    | .error _ => .ok ⊤
    | .ok res => .ok (some ((res.totalTime : ℝ) + 2 * npStd res.responderTimes))

/-- The random draws of a genetic run, keyed by generation and call
site.  `random.shuffle`, `random.sample`, `random.random` and
`random.randint` are abstracted by an oracle (`tourn`/`cxDraw`/`mutDraw`
values are reduced modulo the required range at the call site; the
distinctness that `random.sample` guarantees is not imposed — no claim
depends on it). -/
structure GARand where
  shuffle : ℕ → Chromosome → Chromosome
  tourn : ℕ → ℕ → Fin 3 → ℕ
  cxHappens : ℕ → ℕ → Bool
  cxDraw : ℕ → ℕ → ℕ × ℕ
  mutHappens : ℕ → ℕ → Bool
  mutDraw : ℕ → ℕ → ℕ × ℕ

/-- `np.argmin`: index of the first minimum. -/
def argminIdx {α : Type _} [LinearOrder α] : List α → ℕ
  | [] => 0
  | x :: xs => ((xs.enumFrom 1).foldl (fun best p => if p.2 < best.2 then p else best) (0, x)).1

/-- `GeneticOptimizer._selection`: tournament selection of size 3;
`random.sample(range(len(population)), 3)` raises `ValueError` when the
population has fewer than three members. -/
def tournamentSelection {α : Type _} [LinearOrder α] [Inhabited α] (rand : GARand)
    (gen : ℕ) (pop : List Chromosome) (scores : List α) :
    Except PyErr (List Chromosome) :=
  if pop.length < 3 then .error .valueError
  else .ok ((List.range pop.length).map (fun slot =>
    let contestants := [rand.tourn gen slot 0 % pop.length, rand.tourn gen slot 1 % pop.length,
      rand.tourn gen slot 2 % pop.length]
    let cf := contestants.map (fun i => (scores.get? i).getD default)
    let winner := contestants.getD (argminIdx cf) 0
    pop.getD winner []))

/-- The placement loop of `GeneticOptimizer._fill_child`. -/
def fillChildGo (size : ℕ) :
    List ℤ → List (Option ℤ) → List ℤ → ℕ → List (Option ℤ)
  | [], child, _, _ => child
  | g :: rest, child, childSet, pos =>
    if g ∈ childSet then fillChildGo size rest child childSet pos
    else fillChildGo size rest (child.set (pos % size) (some g)) (g :: childSet) (pos + 1)

/-- `GeneticOptimizer._crossover` (order crossover): both children use
the same random cut points; `random.randint(0, size - 1)` raises
`ValueError` on an empty chromosome. -/
def oxCrossover (r : ℕ × ℕ) (p1 p2 : List ℤ) : Except PyErr (List ℤ × List ℤ) :=
  let size := p1.length
  if size = 0 then .error .valueError
  else
    let cx1 := r.1 % size
    let cx2 := cx1 + 1 + r.2 % (size - cx1)
    let slice := fun (p : List ℤ) => (List.range size).map (fun i =>
      if cx1 ≤ i ∧ i < cx2 then p.get? i else none)
    let fill := fun (child : List (Option ℤ)) (parent : List ℤ) =>
      (fillChildGo size (parent.drop cx2 ++ parent.take cx2) child
        (child.filterMap id) cx2).map (fun o => o.getD (-1))
    .ok (fill (slice p1) p2, fill (slice p2) p1)

/-- `GeneticOptimizer._mutate` (swap mutation);
`random.sample(range(len(mutant)), 2)` raises `ValueError` when the
chromosome has fewer than two genes.  The two sampled positions are
distinct (second drawn from the remaining indices). -/
def swapMutate (r : ℕ × ℕ) (c : List ℤ) : Except PyErr (List ℤ) :=
  if c.length < 2 then .error .valueError
  else
    let i := r.1 % c.length
    let j0 := r.2 % (c.length - 1)
    let j := if j0 < i then j0 else j0 + 1
    .ok ((c.set i (c.getD j 0)).set j (c.getD i 0))

/-- One crossover/mutation pair of the generational loop. -/
def pairStep (rand : GARand) (gen i : ℕ) (p1 p2 : Chromosome) :
    Except PyErr (Chromosome × Chromosome) :=
  match (if rand.cxHappens gen i then oxCrossover (rand.cxDraw gen i) p1 p2
    else .ok (p1, p2)) with
  | .error e => .error e
  | .ok (c1, c2) =>
    match (if rand.mutHappens gen i then swapMutate (rand.mutDraw gen i) c1 else .ok c1) with
    | .error e => .error e
    | .ok c1' =>
      match (if rand.mutHappens gen (i + 1) then swapMutate (rand.mutDraw gen (i + 1)) c2
        else .ok c2) with
      | .error e => .error e
      | .ok c2' => .ok (c1', c2')

/-- `for i in range(0, len(selected), 2)`: pair up the selected parents
(the odd leftover is paired with `selected[0]`). -/
def evolvePairs (rand : GARand) (gen : ℕ) (first : Chromosome) :
    ℕ → List Chromosome → Except PyErr (List Chromosome)
  | _, [] => .ok []
  | i, [p1] =>
    match pairStep rand gen i p1 first with
    | .error e => .error e
    | .ok (c1, c2) => .ok [c1, c2]
  | i, p1 :: p2 :: rest =>
    match pairStep rand gen i p1 p2 with
    | .error e => .error e
    | .ok (c1, c2) =>
      match evolvePairs rand gen first (i + 2) rest with
      | .error e => .error e
      | .ok out => .ok (c1 :: c2 :: out)

/-- The mutable optimizer state across generations
(`self.best_fitness`, `self.best_solution`, `self.fitness_history`). -/
structure GARunState (β : Type _) where
  pop : List Chromosome
  best : β
  bestSol : Option Chromosome
  hist : List β

/-- The generational loop of `GeneticOptimizer.optimize`.  Evaluation
errors abort before the generation's history entry is appended
(`fitness_scores` is computed first); selection/evolution errors abort
after it.  The state reached so far is returned alongside the error,
mirroring the surviving `self.fitness_history` attribute. -/
def gaLoop {β : Type _} [LinearOrder β] [Inhabited β]
    (fit : Chromosome → Except PyErr β) (rand : GARand) (popsize : ℕ) :
    ℕ → ℕ → GARunState β → Option PyErr × GARunState β
  | 0, _, st => (none, st)
  | g + 1, gen, st =>
    match st.pop.mapM fit with
    | .error e => (some e, st)
    | .ok [] => (some .valueError, st)
    | .ok (s :: ss) =>
      let idx := argminIdx (s :: ss)
      let sc := (s :: ss).getD idx default
      let best' := if sc < st.best then sc else st.best
      let bestSol' := if sc < st.best then some (st.pop.getD idx []) else st.bestSol
      let st' : GARunState β :=
        { st with best := best', bestSol := bestSol', hist := st.hist ++ [best'] }
      match tournamentSelection rand gen st.pop (s :: ss) with
      | .error e => (some e, st')
      | .ok selected =>
        match evolvePairs rand gen selected.headI 0 selected with
        | .error e => (some e, st')
        | .ok children =>
          gaLoop fit rand popsize g (gen + 1) { st' with pop := children.take popsize }

/-- The observable outcome of `GeneticOptimizer.optimize`: the returned
assignment or the raised exception, plus the `fitness_history`,
`best_fitness` and `best_solution` attributes left on the object. -/
structure GAOut (β : Type _) where
  result : Except PyErr Assignment
  history : List β
  bestFitness : β
  bestSolution : Option Chromosome

/-- `GeneticOptimizer.optimize` around an arbitrary fitness function:
initialize a population of shuffled index permutations, run the
generational loop, then decode the best solution
(`len(None)` raises `TypeError` when no chromosome ever scored below
the initial `float('inf')`). -/
def gaRun {β : Type _} [LinearOrder β] [Inhabited β]
    (fit : Chromosome → Except PyErr β) (rand : GARand)
    (popsize generations : ℕ) (initBest : β) (roomIds : List String) (k : ℕ) : GAOut β :=
  let pop0 := (List.range popsize).map
    (fun i => rand.shuffle i ((List.range roomIds.length).map Int.ofNat))
  let out := gaLoop fit rand popsize generations 0 ⟨pop0, initBest, none, []⟩
  match out.1 with
  | some e => ⟨.error e, out.2.hist, out.2.best, out.2.bestSol⟩
  | none =>
    match out.2.bestSol with
    | none => ⟨.error .typeError, out.2.hist, out.2.best, out.2.bestSol⟩
    | some c =>
      match chromosomeToAssignment roomIds k c with
      | .error e => ⟨.error e, out.2.hist, out.2.best, out.2.bestSol⟩
      | .ok a => ⟨.ok a, out.2.hist, out.2.best, out.2.bestSol⟩

/-- `GeneticOptimizer.optimize` with the real fitness evaluation
(initial best fitness `float('inf')`). -/
noncomputable def gaOptimize (d : Dist) (b : Building) (team : List Responder)
    (k : ℕ) (roomIds : List String) (rand : GARand) (popsize generations : ℕ) :
    GAOut (WithTop ℝ) :=
  gaRun (evaluateFitness d b team k roomIds) rand popsize generations ⊤ roomIds k


/-- Decoding raises `ZeroDivisionError` whenever the chromosome is as
long as the (positive) room list but there are more agents than rooms:
`rooms_per_responder` floors to `0` and `i // 0` raises on the first
iteration. -/
theorem c2a_div_zero (roomIds : List String) (k : ℕ) (chrom : Chromosome)
    (hn : 0 < roomIds.length) (hnk : roomIds.length < k)
    (hlen : chrom.length = roomIds.length) :
    chromosomeToAssignment roomIds k chrom = .error .zeroDivision := by
  have hk : k ≠ 0 := by omega
  obtain ⟨g, rest, rfl⟩ : ∃ g rest, chrom = g :: rest := by
    cases chrom with
    | nil => simp at hlen; omega
    | cons g rest => exact ⟨g, rest, rfl⟩
  have hlen' : rest.length + 1 = roomIds.length := by simpa using hlen
  have hrpr : (rest.length + 1) / k = 0 := Nat.div_eq_of_lt (by omega)
  simp [chromosomeToAssignment, hk, hrpr, c2aGo]

/-- `mapM` over `Except` fails on the first failing element. -/
theorem mapM_cons_error {α β : Type _} (f : α → Except PyErr β) (x : α) (xs : List α)
    (e : PyErr) (h : f x = .error e) : (x :: xs).mapM f = .error e := by
  simp only [List.mapM_cons, h]
  rfl


/-- **C10 counterexample.**  Decoding is total at room count `0` even
with `2` agents: the empty chromosome (the only permutation of zero
room indices) decodes to the all-empty assignment without any error,
although `0 < 2`.  So "total only under room count ≥ agent count"
overstates the precondition: the failure needs a *positive* room count
below the agent count. -/
theorem chromosome_decode_total_counterexample :
    chromosomeToAssignment [] 2 [] = .ok [(1, []), (2, [])] := rfl

/-- **C10 (amended).**  When the room count is positive but strictly
smaller than the agent count, `rooms_per_responder` floors to zero and
`i // rooms_per_responder` raises `ZeroDivisionError` on every
chromosome of the room-permutation length, and — because decoding
happens outside the `try` in `_evaluate_fitness` — the whole
`GeneticOptimizer.optimize` run fails with that `ZeroDivisionError`
rather than returning an assignment. -/
theorem genetic_rooms_fewer_than_agents (roomIds : List String) (k : ℕ)
    (d : Dist) (b : Building) (team : List Responder) (rand : GARand)
    (popsize generations : ℕ)
    (hn : 0 < roomIds.length) (hnk : roomIds.length < k)
    (hpop : 1 ≤ popsize) (hgen : 1 ≤ generations)
    (hshuf : ∀ i l, List.Perm (rand.shuffle i l) l) :
    (∀ chrom : Chromosome, chrom.length = roomIds.length →
      chromosomeToAssignment roomIds k chrom = .error .zeroDivision) ∧
    (gaOptimize d b team k roomIds rand popsize generations).result
      = .error .zeroDivision := by
  refine ⟨fun chrom hlen => c2a_div_zero roomIds k chrom hn hnk hlen, ?_⟩
  obtain ⟨p, rfl⟩ : ∃ p, popsize = p + 1 := ⟨popsize - 1, by omega⟩
  obtain ⟨g, rfl⟩ : ∃ g, generations = g + 1 := ⟨generations - 1, by omega⟩
  have hc0len : (rand.shuffle 0 ((List.range roomIds.length).map Int.ofNat)).length
      = roomIds.length := by
    rw [(hshuf 0 _).length_eq]; simp
  have hfit : evaluateFitness d b team k roomIds
      (rand.shuffle 0 ((List.range roomIds.length).map Int.ofNat))
        = .error .zeroDivision := by
    simp [evaluateFitness, c2a_div_zero roomIds k _ hn hnk hc0len]
  have hpop0 : (List.range (p + 1)).map
      (fun i => rand.shuffle i ((List.range roomIds.length).map Int.ofNat))
      = rand.shuffle 0 ((List.range roomIds.length).map Int.ofNat)
        :: ((List.range p).map
          (fun i => rand.shuffle (i + 1) ((List.range roomIds.length).map Int.ofNat))) := by
    rw [List.range_succ_eq_map]
    simp [List.map_map, Function.comp]
  have hmapM : ((List.range (p + 1)).map
      (fun i => rand.shuffle i ((List.range roomIds.length).map Int.ofNat))).mapM
        (evaluateFitness d b team k roomIds) = .error .zeroDivision := by
    rw [hpop0]
    exact mapM_cons_error _ _ _ _ hfit
  simp only [gaOptimize, gaRun, gaLoop, hmapM]


/-- The generational loop appends one best-so-far entry per completed
generation, and those entries never increase: the running state keeps
`hist ++ [best]` a non-increasing chain. -/
theorem gaLoop_hist {β : Type _} [LinearOrder β] [Inhabited β]
    (fit : Chromosome → Except PyErr β) (rand : GARand) (popsize : ℕ) (g : ℕ) :
    ∀ (gen : ℕ) (st : GARunState β),
      List.Chain' (fun x y => y ≤ x) (st.hist ++ [st.best]) →
      List.Chain' (fun x y => y ≤ x)
        ((gaLoop fit rand popsize g gen st).2.hist
          ++ [(gaLoop fit rand popsize g gen st).2.best]) ∧
      ((gaLoop fit rand popsize g gen st).1 = none →
        (gaLoop fit rand popsize g gen st).2.hist.length = st.hist.length + g) := by
  induction g with
  | zero =>
    intro gen st hch
    exact ⟨by simpa [gaLoop] using hch, fun _ => by simp [gaLoop]⟩
  | succ g ih =>
    intro gen st hch
    have hb : ∀ sc : β, (if sc < st.best then sc else st.best) ≤ st.best := by
      intro sc
      split
      · exact le_of_lt (by assumption)
      · exact le_refl _
    have hext : ∀ b' : β, b' ≤ st.best →
        List.Chain' (fun x y => y ≤ x) ((st.hist ++ [b']) ++ [b']) := by
      intro b' hb'
      rcases List.chain'_append.mp hch with ⟨h1, _, h3⟩
      refine List.chain'_append.mpr ⟨List.chain'_append.mpr ⟨h1, by simp, ?_⟩, by simp, ?_⟩
      · intro x hx y hy
        simp at hy
        subst hy
        exact le_trans hb' (h3 x hx st.best (by simp))
      · intro x hx y hy
        rw [List.getLast?_concat] at hx
        simp at hx hy
        subst hx
        subst hy
        exact le_refl _
    rcases hm : st.pop.mapM fit with e | scores
    · simp only [gaLoop, hm]
      exact ⟨hch, fun h => by simp at h⟩
    · cases scores with
      | nil =>
        simp only [gaLoop, hm]
        exact ⟨hch, fun h => by simp at h⟩
      | cons s ss =>
        rcases hsel : tournamentSelection rand gen st.pop (s :: ss) with e | selected
        · simp only [gaLoop, hm, hsel]
          exact ⟨hext _ (hb _), fun h => by simp at h⟩
        · rcases hev : evolvePairs rand gen selected.headI 0 selected with e | children
          · simp only [gaLoop, hm, hsel, hev]
            exact ⟨hext _ (hb _), fun h => by simp at h⟩
          · simp only [gaLoop, hm, hsel, hev]
            have hih := ih (gen + 1)
              ⟨children.take popsize,
                (if (s :: ss).getD (argminIdx (s :: ss)) default < st.best
                  then (s :: ss).getD (argminIdx (s :: ss)) default else st.best),
                (if (s :: ss).getD (argminIdx (s :: ss)) default < st.best
                  then some (st.pop.getD (argminIdx (s :: ss)) []) else st.bestSol),
                st.hist ++ [if (s :: ss).getD (argminIdx (s :: ss)) default < st.best
                  then (s :: ss).getD (argminIdx (s :: ss)) default else st.best]⟩
              (hext _ (hb _))
            refine ⟨hih.1, fun h => ?_⟩
            have hlen := hih.2 h
            simp only [List.length_append, List.length_cons, List.length_nil] at hlen
            omega


/-- **C7.**  For any random draws, population size ≥ 3 and generation
count ≥ 1, the fitness history recorded by `GeneticOptimizer.optimize`
is non-increasing (each best-ever entry ≤ its predecessor), and any
run that returns an assignment records exactly one entry per
generation. -/
theorem gaOptimize_history_monotone (d : Dist) (b : Building) (team : List Responder)
    (k : ℕ) (roomIds : List String) (rand : GARand) (popsize generations : ℕ)
    (hpop : 3 ≤ popsize) (hgen : 1 ≤ generations) :
    List.Chain' (fun x y => y ≤ x)
      (gaOptimize d b team k roomIds rand popsize generations).history ∧
    (∀ a, (gaOptimize d b team k roomIds rand popsize generations).result = .ok a →
      (gaOptimize d b team k roomIds rand popsize generations).history.length
        = generations) := by
  obtain ⟨hchain, hlen⟩ := gaLoop_hist (evaluateFitness d b team k roomIds) rand popsize
    generations 0
    ⟨(List.range popsize).map
      (fun i => rand.shuffle i ((List.range roomIds.length).map Int.ofNat)), ⊤, none, []⟩
    (by simp)
  rcases hout : gaLoop (evaluateFitness d b team k roomIds) rand popsize generations 0
      ⟨(List.range popsize).map
        (fun i => rand.shuffle i ((List.range roomIds.length).map Int.ofNat)), ⊤, none, []⟩
    with ⟨err, stF⟩
  rw [hout] at hchain hlen
  dsimp only at hchain hlen
  have hhist : (gaOptimize d b team k roomIds rand popsize generations).history
      = stF.hist := by
    simp only [gaOptimize, gaRun, hout]
    rcases err with _ | e
    · rcases hbs : stF.bestSol with _ | c
      · simp
      · rcases hdec : chromosomeToAssignment roomIds k c with e2 | a <;> simp [hdec]
    · simp
  refine ⟨?_, fun a ha => ?_⟩
  · rw [hhist]
    exact (List.chain'_append.mp hchain).1
  · rw [hhist]
    rcases err with _ | e
    · have := hlen rfl
      simpa using this
    · rw [show (gaOptimize d b team k roomIds rand popsize generations).result
          = .error e by simp only [gaOptimize, gaRun, hout]] at ha
      exact absurd ha (by simp)

/-- `gaOptimize_history_monotone` at a concrete configuration
(population size 3, one generation). -/
theorem gaOptimize_history_monotone_witness :
    List.Chain' (fun x y => y ≤ x)
      (gaOptimize (fun _ _ => none) ⟨[]⟩ [] 0 []
        ⟨fun _ l => l, fun _ _ _ => 0, fun _ _ => false, fun _ _ => (0, 0),
          fun _ _ => false, fun _ _ => (0, 0)⟩ 3 1).history ∧
    (∀ a, (gaOptimize (fun _ _ => none) ⟨[]⟩ [] 0 []
        ⟨fun _ l => l, fun _ _ _ => 0, fun _ _ => false, fun _ _ => (0, 0),
          fun _ _ => false, fun _ _ => (0, 0)⟩ 3 1).result = .ok a →
      (gaOptimize (fun _ _ => none) ⟨[]⟩ [] 0 []
        ⟨fun _ l => l, fun _ _ _ => 0, fun _ _ => false, fun _ _ => (0, 0),
          fun _ _ => false, fun _ _ => (0, 0)⟩ 3 1).history.length = 1) :=
  gaOptimize_history_monotone _ _ _ _ _ _ _ _ (by norm_num) (by norm_num)


/-- `genetic_rooms_fewer_than_agents` at one room and two agents. -/
theorem genetic_rooms_fewer_than_agents_witness :
    (∀ chrom : Chromosome, chrom.length = ["R1"].length →
      chromosomeToAssignment ["R1"] 2 chrom = .error .zeroDivision) ∧
    (gaOptimize (fun _ _ => none) ⟨[]⟩ [] 2 ["R1"]
      ⟨fun _ l => l, fun _ _ _ => 0, fun _ _ => false, fun _ _ => (0, 0),
        fun _ _ => false, fun _ _ => (0, 0)⟩ 1 1).result = .error .zeroDivision :=
  genetic_rooms_fewer_than_agents ["R1"] 2 (fun _ _ => none) ⟨[]⟩ []
    ⟨fun _ l => l, fun _ _ _ => 0, fun _ _ => false, fun _ _ => (0, 0),
      fun _ _ => false, fun _ _ => (0, 0)⟩ 1 1
    (by simp) (by simp) (by norm_num) (by norm_num) (fun i l => List.Perm.refl l)


/-! ### Chromosome decoding: block structure (C6) -/

/-- Appending a list of rooms one by one to one agent's bucket. -/
def appendMany (a : Assignment) (key : ℕ) (xs : List String) : Assignment :=
  xs.foldl (fun acc x => appendTo acc key x) a

theorem appendMany_cons_eq (key : ℕ) :
    ∀ (xs : List String) (l0 : List String) (pending : Assignment),
      appendMany ((key, l0) :: pending) key xs = (key, l0 ++ xs) :: pending
  | [], l0, pending => by simp [appendMany]
  | x :: xs, l0, pending => by
    have hstep : appendTo ((key, l0) :: pending) key x = (key, l0 ++ [x]) :: pending := by
      simp [appendTo]
    simp only [appendMany, List.foldl_cons, hstep]
    have hrec := appendMany_cons_eq key xs (l0 ++ [x]) pending
    simp only [appendMany] at hrec
    rw [hrec, List.append_assoc]
    rfl

theorem appendMany_cons_ne (key j : ℕ) (hj : j ≠ key) :
    ∀ (xs : List String) (l0 : List String) (pending : Assignment),
      appendMany ((j, l0) :: pending) key xs = (j, l0) :: appendMany pending key xs
  | [], l0, pending => by simp [appendMany]
  | x :: xs, l0, pending => by
    have hstep : appendTo ((j, l0) :: pending) key x = (j, l0) :: appendTo pending key x := by
      simp [appendTo, hj]
    simp only [appendMany, List.foldl_cons, hstep]
    have hrec := appendMany_cons_ne key j hj xs l0 (appendTo pending key x)
    simp only [appendMany] at hrec
    rw [hrec]

/-- When the index is in range, `room_ids[room_idx]` succeeds and
returns the indexed room. -/
theorem geneRoom_get (l : List String) (j : ℕ) (hj : j < l.length) :
    pyIndex l (Int.ofNat j) = .ok (geneRoom l (Int.ofNat j)) ∧
      geneRoom l (Int.ofNat j) = l.get ⟨j, hj⟩ := by
  have h1 : ((0 : ℤ) ≤ Int.ofNat j) := Int.ofNat_nonneg j
  have h0 : ¬ ((Int.ofNat j : ℤ) < 0) := not_lt.mpr h1
  have hpy : pyIndex l (Int.ofNat j) = .ok (l.get ⟨j, hj⟩) := by
    unfold pyIndex
    rw [if_neg h0]
    dsimp only
    rw [if_pos h1]
    have htn : (Int.ofNat j).toNat = j := rfl
    rw [htn, List.get?_eq_get hj]
  have hg : geneRoom l (Int.ofNat j) = l.get ⟨j, hj⟩ := by
    unfold geneRoom
    rw [hpy]
    rfl
  exact ⟨by rw [hpy, hg], hg⟩

/-- Reading the whole room list off through `geneRoom`. -/
theorem range_map_geneRoom (l : List String) :
    (List.range l.length).map (fun j => geneRoom l (Int.ofNat j)) = l := by
  refine List.ext_get (by simp) ?_
  intro i h1 h2
  rw [List.get_map, List.get_range]
  exact (geneRoom_get l i (by simpa using h2)).2

/-- A run of the decoding loop over a segment whose indices all fall in
one agent's bucket appends the decoded segment to that bucket. -/
theorem c2aGo_segment (roomIds : List String) (k rpr key : ℕ) (hrpr : rpr ≠ 0) :
    ∀ (seg rest : List ℤ) (i₀ : ℕ) (a : Assignment),
      (∀ m, m < seg.length → min ((i₀ + m) / rpr) (k - 1) + 1 = key) →
      (∀ g ∈ seg, ∃ x, pyIndex roomIds g = .ok x) →
      c2aGo roomIds k rpr a i₀ (seg ++ rest)
        = c2aGo roomIds k rpr (appendMany a key (seg.map (geneRoom roomIds)))
            (i₀ + seg.length) rest
  | [], rest, i₀, a, _, _ => by simp [appendMany]
  | g :: gs, rest, i₀, a, hkey, hval => by
    obtain ⟨x, hx⟩ := hval g (by simp)
    have hx' : pyIndex roomIds g = .ok (geneRoom roomIds g) := by
      rw [hx]
      simp [geneRoom, hx, Except.toOption]
    have hk0 := hkey 0 (by simp)
    simp only [Nat.add_zero] at hk0
    simp only [List.cons_append, c2aGo]
    rw [if_neg hrpr]
    simp only [hx', hk0, List.append_eq]
    have hrec := c2aGo_segment roomIds k rpr key hrpr gs rest (i₀ + 1)
      (appendTo a key (geneRoom roomIds g))
      (fun m hm => by
        have h := hkey (m + 1) (by simpa using Nat.succ_lt_succ hm)
        rwa [show i₀ + (m + 1) = i₀ + 1 + m from by omega] at h)
      (fun g' hg' => hval g' (List.mem_cons_of_mem _ hg'))
    rw [hrec]
    simp only [appendMany, List.foldl_cons, List.map_cons, List.length_cons]
    rw [show i₀ + 1 + gs.length = i₀ + (gs.length + 1) from by omega]


/-- The effect of the decoding loop, bucket by bucket: each of the
`jrem` leading buckets takes `rpr` genes, the final bucket takes the
rest. -/
def appendBlocks (roomIds : List String) (rpr : ℕ) :
    Assignment → ℕ → ℕ → List ℤ → Assignment
  | a, key, 0, l => appendMany a key (l.map (geneRoom roomIds))
  | a, key, jrem + 1, l =>
    appendBlocks roomIds rpr (appendMany a key ((l.take rpr).map (geneRoom roomIds)))
      (key + 1) jrem (l.drop rpr)

/-- The decoded blocks, written directly as slices. -/
def blocksFrom (roomIds : List String) (rpr : ℕ) : ℕ → ℕ → List ℤ → Assignment
  | 0, key, l => [(key, l.map (geneRoom roomIds))]
  | jrem + 1, key, l =>
    (key, (l.take rpr).map (geneRoom roomIds))
      :: blocksFrom roomIds rpr jrem (key + 1) (l.drop rpr)

theorem appendBlocks_cons_ne (roomIds : List String) (rpr : ℕ) :
    ∀ (jrem key : ℕ) (j : ℕ) (l0 : List String) (rest : Assignment) (l : List ℤ),
      (∀ t, t ≤ jrem → j ≠ key + t) →
      appendBlocks roomIds rpr ((j, l0) :: rest) key jrem l
        = (j, l0) :: appendBlocks roomIds rpr rest key jrem l
  | 0, key, j, l0, rest, l, h => by
    simp only [appendBlocks]
    exact appendMany_cons_ne key j (by simpa using h 0 (le_refl 0)) _ l0 rest
  | jrem + 1, key, j, l0, rest, l, h => by
    simp only [appendBlocks]
    rw [appendMany_cons_ne key j (by simpa using h 0 (by omega)) _ l0 rest]
    exact appendBlocks_cons_ne roomIds rpr jrem (key + 1) j l0 _ _
      (fun t ht => by
        have := h (t + 1) (by omega)
        omega)

/-- Starting from freshly emptied buckets `key, key+1, …`, the loop
effect is exactly the slice decomposition. -/
theorem appendBlocks_structure (roomIds : List String) (rpr : ℕ) :
    ∀ (jrem key : ℕ) (l : List ℤ),
      appendBlocks roomIds rpr
          ((List.range' key (jrem + 1)).map (fun key' => (key', ([] : List String))))
          key jrem l
        = blocksFrom roomIds rpr jrem key l
  | 0, key, l => by
    rw [List.range'_succ]
    simp only [List.range'_zero, List.map_cons, List.map_nil, appendBlocks, blocksFrom]
    rw [appendMany_cons_eq]
    simp
  | jrem + 1, key, l => by
    rw [List.range'_succ]
    simp only [List.map_cons, appendBlocks, blocksFrom]
    rw [appendMany_cons_eq]
    simp only [List.nil_append]
    rw [appendBlocks_cons_ne roomIds rpr jrem (key + 1) key _ _ _
      (fun t ht => by omega)]
    rw [appendBlocks_structure roomIds rpr jrem (key + 1) (l.drop rpr)]


/-- The slice decomposition in closed form. -/
theorem blocksFrom_eq_map (roomIds : List String) (rpr : ℕ) :
    ∀ (jrem key : ℕ) (l : List ℤ),
      blocksFrom roomIds rpr jrem key l
        = (List.range (jrem + 1)).map (fun t =>
            (key + t, if t < jrem
              then ((l.drop (t * rpr)).take rpr).map (geneRoom roomIds)
              else (l.drop (t * rpr)).map (geneRoom roomIds)))
  | 0, key, l => by
    rw [show List.range 1 = [0] from rfl]
    simp [blocksFrom]
  | jrem + 1, key, l => by
    rw [show jrem + 1 + 1 = (jrem + 1) + 1 from rfl, List.range_succ_eq_map]
    simp only [List.map_cons, List.map_map]
    rw [if_pos (show 0 < jrem + 1 from by omega)]
    simp only [blocksFrom, Nat.add_zero, Nat.zero_mul, List.drop_zero]
    congr 1
    rw [blocksFrom_eq_map roomIds rpr jrem (key + 1) (l.drop rpr)]
    refine List.map_congr_left ?_
    intro t ht
    simp only [Function.comp]
    have h1 : key + 1 + t = key + (t + 1) := by omega
    have h2 : (t < jrem) = (t + 1 < jrem + 1) := by
      simp only [eq_iff_iff]
      omega
    have h3 : (l.drop rpr).drop (t * rpr) = l.drop ((t + 1) * rpr) := by
      rw [List.drop_drop]
      congr 1
      ring
    rw [h1, h3]
    by_cases hc : t < jrem
    · rw [if_pos hc, if_pos (by omega)]
    · rw [if_neg hc, if_neg (by omega)]

/-- Running the decoding loop from block `j` onward (enough genes for
all full blocks) produces exactly the remaining blocks. -/
theorem c2aGo_run (roomIds : List String) (k rpr : ℕ) (hrpr : rpr ≠ 0) :
    ∀ (jrem j : ℕ) (a : Assignment) (l : List ℤ),
      j + jrem = k - 1 →
      rpr * jrem ≤ l.length →
      (∀ g ∈ l, ∃ x, pyIndex roomIds g = .ok x) →
      c2aGo roomIds k rpr a (j * rpr) l = .ok (appendBlocks roomIds rpr a (j + 1) jrem l)
  | 0, j, a, l, hj, _, hval => by
    have hkey : ∀ m, m < l.length → min ((j * rpr + m) / rpr) (k - 1) + 1 = j + 1 := by
      intro m _
      have hdiv : j ≤ (j * rpr + m) / rpr :=
        (Nat.le_div_iff_mul_le (by omega)).mpr (by omega)
      have : min ((j * rpr + m) / rpr) (k - 1) = k - 1 :=
        min_eq_right (by omega)
      omega
    have hs := c2aGo_segment roomIds k rpr (j + 1) hrpr l [] (j * rpr) a hkey hval
    rw [List.append_nil] at hs
    rw [hs]
    simp only [c2aGo, appendBlocks]
  | jrem + 1, j, a, l, hj, hlen, hval => by
    have hrl : rpr ≤ l.length := by
      have : rpr * 1 ≤ rpr * (jrem + 1) := Nat.mul_le_mul_left rpr (by omega)
      omega
    have htl : (l.take rpr).length = rpr := by
      rw [List.length_take]
      omega
    have hkey : ∀ m, m < (l.take rpr).length →
        min ((j * rpr + m) / rpr) (k - 1) + 1 = j + 1 := by
      intro m hm
      rw [htl] at hm
      have hdiv : (j * rpr + m) / rpr = j := by
        rw [Nat.add_comm, Nat.add_mul_div_right _ _ (by omega : 0 < rpr),
          Nat.div_eq_of_lt hm]
        omega
      rw [hdiv]
      have : min j (k - 1) = j := min_eq_left (by omega)
      omega
    have hs := c2aGo_segment roomIds k rpr (j + 1) hrpr (l.take rpr) (l.drop rpr)
      (j * rpr) a hkey (fun g hg => hval g (List.take_subset _ _ hg))
    rw [List.take_append_drop] at hs
    rw [hs, htl]
    have hrec := c2aGo_run roomIds k rpr hrpr jrem (j + 1)
      (appendMany a (j + 1) ((l.take rpr).map (geneRoom roomIds))) (l.drop rpr)
      (by omega)
      (by
        rw [List.length_drop]
        have : rpr * (jrem + 1) = rpr * jrem + rpr := by ring
        omega)
      (fun g hg => hval g (List.drop_subset _ _ hg))
    rw [show j * rpr + rpr = (j + 1) * rpr from by ring]
    rw [hrec]
    simp only [appendBlocks]

theorem join_append_eq {α : Type _} (l1 l2 : List (List α)) :
    (l1 ++ l2).join = l1.join ++ l2.join := List.flatten_append l1 l2

/-- Concatenating `m` leading slices of width `rpr` with the tail from
position `m * rpr` restores the list. -/
theorem slices_join_aux {α β : Type _} (f : α → β) (rpr : ℕ) :
    ∀ (m : ℕ) (l : List α),
      ((List.range m).map (fun j => ((l.drop (j * rpr)).take rpr).map f)).join
          ++ (l.drop (m * rpr)).map f
        = l.map f
  | 0, l => by simp
  | m + 1, l => by
    rw [List.range_succ, List.map_append, join_append_eq]
    simp only [List.map_cons, List.map_nil, List.join_cons, List.join_nil,
      List.append_nil]
    rw [List.append_assoc, ← List.map_append]
    have h1 : (l.drop (m * rpr)).take rpr ++ l.drop ((m + 1) * rpr) = l.drop (m * rpr) := by
      have h2 : l.drop ((m + 1) * rpr) = (l.drop (m * rpr)).drop rpr := by
        rw [List.drop_drop]
        congr 1
        ring
      rw [h2, List.take_append_drop]
    rw [h1]
    exact slices_join_aux f rpr m l

/-- The decoded blocks concatenate, in agent order, to the image of the
whole chromosome. -/
theorem slices_join {α β : Type _} (f : α → β) (rpr k : ℕ) (hk : 1 ≤ k) (l : List α) :
    ((List.range k).map (fun j => if j < k - 1
        then ((l.drop (j * rpr)).take rpr).map f
        else (l.drop (j * rpr)).map f)).join = l.map f := by
  obtain ⟨m, rfl⟩ : ∃ m, k = m + 1 := ⟨k - 1, by omega⟩
  rw [List.range_succ, List.map_append, join_append_eq]
  have h1 : (List.range m).map (fun j => if j < m + 1 - 1
        then ((l.drop (j * rpr)).take rpr).map f
        else (l.drop (j * rpr)).map f)
      = (List.range m).map (fun j => ((l.drop (j * rpr)).take rpr).map f) := by
    refine List.map_congr_left ?_
    intro j hj
    rw [if_pos (by simp at hj; omega)]
  rw [h1]
  simp only [List.map_cons, List.map_nil, List.join_cons, List.join_nil, List.append_nil]
  rw [if_neg (by omega : ¬ (m < m + 1 - 1))]
  exact slices_join_aux f rpr m l


/-- **C6.**  For a chromosome that is a permutation of the `n` room
indices and an agent count `k` with `1 ≤ k ≤ n`, decoding splits the
chromosome in chromosome order into contiguous blocks: agents
`1..k-1` each receive exactly `⌊n/k⌋` consecutive genes and agent `k`
receives all remaining genes, and the decoded sequences concatenate to
a permutation of the room set. -/
theorem chromosomeToAssignment_blocks (roomIds : List String) (k : ℕ) (chrom : Chromosome)
    (hk : 1 ≤ k) (hkn : k ≤ roomIds.length)
    (hperm : List.Perm chrom ((List.range roomIds.length).map Int.ofNat)) :
    ∃ a, chromosomeToAssignment roomIds k chrom = .ok a ∧
      a = (List.range k).map (fun j =>
        (j + 1, if j < k - 1
          then ((chrom.drop (j * (chrom.length / k))).take (chrom.length / k)).map
            (geneRoom roomIds)
          else (chrom.drop (j * (chrom.length / k))).map (geneRoom roomIds))) ∧
      (∀ j, j < k - 1 →
        (((chrom.drop (j * (chrom.length / k))).take (chrom.length / k)).map
          (geneRoom roomIds)).length = roomIds.length / k) ∧
      List.Perm ((a.map Prod.snd).join) roomIds := by
  have hlen : chrom.length = roomIds.length := by
    rw [hperm.length_eq]
    simp
  have hk0 : k ≠ 0 := by omega
  have hrpr_pos : 1 ≤ chrom.length / k := by
    rw [hlen]
    exact (Nat.one_le_div_iff (by omega)).mpr hkn
  have hrpr : chrom.length / k ≠ 0 := by omega
  have hval : ∀ g ∈ chrom, ∃ x, pyIndex roomIds g = .ok x := by
    intro g hg
    obtain ⟨j, hj, rfl⟩ := List.mem_map.mp (hperm.subset hg)
    exact ⟨_, (geneRoom_get roomIds j (List.mem_range.mp hj)).1⟩
  have hmul : chrom.length / k * k ≤ chrom.length := Nat.div_mul_le_self _ _
  have hrun := c2aGo_run roomIds k (chrom.length / k) hrpr (k - 1) 0
    (initAssignmentIds k) chrom (by omega)
    (by
      have h1 : chrom.length / k * (k - 1) ≤ chrom.length / k * k :=
        Nat.mul_le_mul_left _ (by omega)
      omega)
    hval
  rw [Nat.zero_mul] at hrun
  have hca : chromosomeToAssignment roomIds k chrom
      = c2aGo roomIds k (chrom.length / k) (initAssignmentIds k) 0 chrom := by
    simp [chromosomeToAssignment, hk0]
  have hinit : initAssignmentIds k
      = (List.range' 1 ((k - 1) + 1)).map (fun key => (key, ([] : List String))) := by
    rw [show (k - 1) + 1 = k from by omega]
    unfold initAssignmentIds
    rw [List.range'_eq_map_range, List.map_map]
    exact List.map_congr_left (fun i _ => by simp [Function.comp, Nat.add_comm])
  have hblocks : appendBlocks roomIds (chrom.length / k) (initAssignmentIds k)
      (0 + 1) (k - 1) chrom = blocksFrom roomIds (chrom.length / k) (k - 1) 1 chrom := by
    rw [hinit, show (0 : ℕ) + 1 = 1 from rfl]
    exact appendBlocks_structure roomIds _ (k - 1) 1 chrom
  have hform := blocksFrom_eq_map roomIds (chrom.length / k) (k - 1) 1 chrom
  rw [show (k - 1) + 1 = k from by omega] at hform
  have hform' : blocksFrom roomIds (chrom.length / k) (k - 1) 1 chrom
      = (List.range k).map (fun j =>
          (j + 1, if j < k - 1
            then ((chrom.drop (j * (chrom.length / k))).take (chrom.length / k)).map
              (geneRoom roomIds)
            else (chrom.drop (j * (chrom.length / k))).map (geneRoom roomIds))) := by
    rw [hform]
    exact List.map_congr_left (fun t _ => by rw [Nat.add_comm 1 t])
  refine ⟨(List.range k).map (fun j =>
      (j + 1, if j < k - 1
        then ((chrom.drop (j * (chrom.length / k))).take (chrom.length / k)).map
          (geneRoom roomIds)
        else (chrom.drop (j * (chrom.length / k))).map (geneRoom roomIds))),
    ?_, rfl, ?_, ?_⟩
  · rw [hca, hrun, hblocks, hform']
  · intro j hj
    rw [List.length_map, List.length_take, List.length_drop, ← hlen]
    have h2 : (j + 1) * (chrom.length / k) ≤ k * (chrom.length / k) :=
      Nat.mul_le_mul_right _ (by omega)
    have h3 : k * (chrom.length / k) ≤ chrom.length := by
      rw [Nat.mul_comm]
      exact hmul
    rw [show (j + 1) * (chrom.length / k)
        = j * (chrom.length / k) + chrom.length / k from by ring] at h2
    omega
  · have hjoin : (((List.range k).map (fun j =>
        ((j + 1 : ℕ), if j < k - 1
          then ((chrom.drop (j * (chrom.length / k))).take (chrom.length / k)).map
            (geneRoom roomIds)
          else (chrom.drop (j * (chrom.length / k))).map (geneRoom roomIds)))).map
        Prod.snd).join = chrom.map (geneRoom roomIds) := by
      rw [List.map_map]
      have hmm : (List.range k).map (Prod.snd ∘ (fun j =>
          ((j + 1 : ℕ), if j < k - 1
            then ((chrom.drop (j * (chrom.length / k))).take (chrom.length / k)).map
              (geneRoom roomIds)
            else (chrom.drop (j * (chrom.length / k))).map (geneRoom roomIds))))
          = (List.range k).map (fun j => if j < k - 1
            then ((chrom.drop (j * (chrom.length / k))).take (chrom.length / k)).map
              (geneRoom roomIds)
            else (chrom.drop (j * (chrom.length / k))).map (geneRoom roomIds)) :=
        List.map_congr_left (fun j _ => rfl)
      rw [hmm]
      exact slices_join (geneRoom roomIds) (chrom.length / k) k hk chrom
    rw [hjoin]
    have h4 : List.Perm (chrom.map (geneRoom roomIds))
        (((List.range roomIds.length).map Int.ofNat).map (geneRoom roomIds)) :=
      hperm.map _
    rw [List.map_map] at h4
    have h5 : (List.range roomIds.length).map ((geneRoom roomIds) ∘ Int.ofNat)
        = roomIds := by
      refine Eq.trans ?_ (range_map_geneRoom roomIds)
      exact List.map_congr_left (fun j _ => rfl)
    rw [h5] at h4
    exact h4

/-- `chromosomeToAssignment_blocks` at rooms `["A","B","C"]`, two
agents and chromosome `[2, 0, 1]`. -/
theorem chromosomeToAssignment_blocks_witness :
    ∃ a, chromosomeToAssignment ["A", "B", "C"] 2 [2, 0, 1] = .ok a ∧
      a = (List.range 2).map (fun j =>
        (j + 1, if j < 2 - 1
          then ((([2, 0, 1] : Chromosome).drop
              (j * (([2, 0, 1] : Chromosome).length / 2))).take
            (([2, 0, 1] : Chromosome).length / 2)).map (geneRoom ["A", "B", "C"])
          else (([2, 0, 1] : Chromosome).drop
            (j * (([2, 0, 1] : Chromosome).length / 2))).map
              (geneRoom ["A", "B", "C"]))) ∧
      (∀ j, j < 2 - 1 →
        (((([2, 0, 1] : Chromosome).drop
            (j * (([2, 0, 1] : Chromosome).length / 2))).take
          (([2, 0, 1] : Chromosome).length / 2)).map (geneRoom ["A", "B", "C"])).length
            = (["A", "B", "C"] : List String).length / 2) ∧
      List.Perm ((a.map Prod.snd).join) ["A", "B", "C"] :=
  chromosomeToAssignment_blocks ["A", "B", "C"] 2 [2, 0, 1] (by norm_num) (by decide)
    (by decide)


/-! ### Claim C9: timeline monotonicity -/

/-- Positive speeds and non-negative check parameters for an agent. -/
def goodParams (r : Responder) : Prop :=
  0 < r.walkSpeed ∧ 0 < r.stairUpSpeed ∧ 0 < r.stairDownSpeed ∧
    0 ≤ r.checkRate ∧ 0 ≤ r.baseCheckTime

/-- Timeline invariant: event times never decrease, and none exceeds
the agent's clock. -/
def timelineOk (r : Responder) : Prop :=
  List.Chain' (fun e1 e2 => e1.time ≤ e2.time) r.timeline ∧
    ∀ e ∈ r.timeline, e.time ≤ r.currentTime

theorem timeline_snoc (r : Responder) (hr : timelineOk r) (t : ℚ)
    (ht : r.currentTime ≤ t) (ev : EvAction) (loc : String) :
    List.Chain' (fun e1 e2 => e1.time ≤ e2.time)
        (r.timeline ++ [⟨t, ev, loc⟩]) ∧
      ∀ e ∈ r.timeline ++ [⟨t, ev, loc⟩], e.time ≤ t := by
  constructor
  · rw [List.chain'_append]
    refine ⟨hr.1, by simp, ?_⟩
    intro x hx y hy
    simp only [List.head?_cons, Option.mem_def, Option.some.injEq] at hy
    subst hy
    exact le_trans (hr.2 x (List.mem_of_mem_getLast? hx)) ht
  · intro e he
    rcases List.mem_append.mp he with h | h
    · exact le_trans (hr.2 e h) ht
    · simp only [List.mem_singleton] at h
      subst h
      exact le_refl t

theorem move_to_timelineOk (r : Responder) (loc : String) (dist : ℚ)
    (is : Bool) (fc : ℤ) (hr : timelineOk r) (hg : goodParams r) (hdist : 0 ≤ dist) :
    timelineOk (r.move_to loc dist is fc) := by
  have htt : 0 ≤ (if is then if fc > 0 then dist / r.stairUpSpeed
      else dist / r.stairDownSpeed else dist / r.walkSpeed) := by
    split
    · split
      · exact div_nonneg hdist (le_of_lt hg.2.1)
      · exact div_nonneg hdist (le_of_lt hg.2.2.1)
    · exact div_nonneg hdist (le_of_lt hg.1)
  have hsnoc := timeline_snoc r hr
    (r.currentTime + (if is then if fc > 0 then dist / r.stairUpSpeed
      else dist / r.stairDownSpeed else dist / r.walkSpeed))
    (by linarith) .arrive loc
  unfold Responder.move_to timelineOk
  exact hsnoc

theorem check_room_timelineOk (r : Responder) (room : Room) (c : Clearance)
    (hr : timelineOk r) (hg : goodParams r)
    (harea : 0 ≤ room.area) (hcplx : 0 ≤ room.checkComplexity) :
    timelineOk (r.check_room room c).1 := by
  have hct : 0 ≤ room.calculate_check_time r.baseCheckTime r.checkRate := by
    unfold Room.calculate_check_time
    have h1 : 0 ≤ r.checkRate * room.area * room.checkComplexity :=
      mul_nonneg (mul_nonneg hg.2.2.2.1 harea) hcplx
    have h2 := hg.2.2.2.2
    linarith
  have hsnoc := timeline_snoc r hr
    (r.currentTime + room.calculate_check_time r.baseCheckTime r.checkRate)
    (by linarith) .checkComplete room.id
  unfold Responder.check_room timelineOk
  exact hsnoc

theorem move_to_goodParams (r : Responder) (loc : String) (dist : ℚ)
    (is : Bool) (fc : ℤ) (hg : goodParams r) :
    goodParams (r.move_to loc dist is fc) := hg

theorem check_room_goodParams (r : Responder) (room : Room) (c : Clearance)
    (hg : goodParams r) : goodParams (r.check_room room c).1 := hg

theorem executePath_timelineOk (d : Dist) (b : Building)
    (hd : ∀ x y q, d x y = some q → 0 ≤ q)
    (hrooms : ∀ room ∈ b.rooms, 0 ≤ room.area ∧ 0 ≤ room.checkComplexity) :
    ∀ (roomIds : List String) (r : Responder) (cur : String) (c : Clearance)
      (ws : List Warning) (out : Responder × Clearance × List Warning),
      executePath d b r cur roomIds c ws = .ok out →
      timelineOk r → goodParams r → timelineOk out.1
  | [], r, cur, c, ws, out, h, hr, _ => by
    simp only [executePath] at h
    cases h
    exact hr
  | roomId :: rest, r, cur, c, ws, out, h, hr, hg => by
    rcases hdist : d cur roomId with _ | dist
    · rw [executePath, hdist] at h
      exact executePath_timelineOk d b hd hrooms rest r cur c _ out h hr hg
    · rw [executePath, hdist] at h
      rcases hfind : b.findRoom roomId with _ | room
      · rw [hfind] at h
        cases h
      · rw [hfind] at h
        have hmem : room ∈ b.rooms := List.mem_of_find?_eq_some hfind
        have hq : 0 ≤ dist := hd cur roomId dist hdist
        have h1 : timelineOk (r.move_to roomId dist) :=
          move_to_timelineOk r roomId dist false 0 hr hg hq
        have hg1 : goodParams (r.move_to roomId dist) :=
          move_to_goodParams r roomId dist false 0 hg
        have h2 : timelineOk ((r.move_to roomId dist).check_room room c).1 :=
          check_room_timelineOk _ room c h1 hg1 (hrooms room hmem).1 (hrooms room hmem).2
        have hg2 : goodParams ((r.move_to roomId dist).check_room room c).1 :=
          check_room_goodParams _ room c hg1
        exact executePath_timelineOk d b hd hrooms rest _ roomId _ ws out h h2 hg2

theorem runTeam_timelineOk (d : Dist) (b : Building) (assignment : Assignment)
    (hd : ∀ x y q, d x y = some q → 0 ≤ q)
    (hrooms : ∀ room ∈ b.rooms, 0 ≤ room.area ∧ 0 ≤ room.checkComplexity) :
    ∀ (team : List Responder) (c : Clearance) (ws : List Warning)
      (out : List Responder × Clearance × List Warning),
      runTeam d b assignment team c ws = .ok out →
      (∀ r ∈ team, timelineOk r ∧ goodParams r) →
      ∀ r ∈ out.1, timelineOk r
  | [], c, ws, out, h, _ => by
    simp only [runTeam] at h
    cases h
    intro r hrr
    simp at hrr
  | r0 :: rest, c, ws, out, h, hteam => by
    rcases hl : assignment.lookup r0.id with _ | roomIds
    · simp only [runTeam, hl] at h
      exact absurd h (by simp)
    · simp only [runTeam, hl] at h
      rcases hex : executePath d b r0 r0.position roomIds c ws with e | ⟨r1, c1, ws1⟩
      · simp only [hex] at h
        exact absurd h (by simp)
      · simp only [hex] at h
        rcases hrun : runTeam d b assignment rest c1 ws1 with e | ⟨rs, c2, ws2⟩
        · simp only [hrun] at h
          exact absurd h (by simp)
        · simp only [hrun, Except.ok.injEq] at h
          subst h
          intro r hrr
          rcases List.mem_cons.mp hrr with rfl | hrr
          · exact executePath_timelineOk d b hd hrooms roomIds r0 r0.position c ws
              (r, c1, ws1) hex (hteam r0 (List.mem_cons_self _ _)).1
              (hteam r0 (List.mem_cons_self _ _)).2
          · exact runTeam_timelineOk d b assignment hd hrooms rest c1 ws1 (rs, c2, ws2)
              hrun (fun r' hr' => hteam r' (List.mem_cons_of_mem _ hr')) r hrr

theorem reset_timelineOk (r : Responder) : timelineOk r.reset := by
  unfold timelineOk Responder.reset
  constructor
  · simp
  · intro e he
    simp only [List.mem_singleton] at he
    subst he
    exact le_refl 0

theorem reset_goodParams (r : Responder) (hg : goodParams r) : goodParams r.reset := hg

/-- **C9.**  Under positive speeds, non-negative check parameters,
non-negative travel distances and non-negative room areas and
complexities, every agent timeline produced by a completed simulation
run (the initial `start` event plus the `arrive` and `check_complete`
events appended while replaying) has non-decreasing `time` values. -/
theorem simRun_timeline_monotone (d : Dist) (b : Building) (team : List Responder)
    (assignment : Assignment)
    (hd : ∀ x y q, d x y = some q → 0 ≤ q)
    (hrooms : ∀ room ∈ b.rooms, 0 ≤ room.area ∧ 0 ≤ room.checkComplexity)
    (hteam : ∀ r ∈ team, goodParams r) :
    ∀ res : SimResult, simRun d b team assignment = .ok res →
      ∀ r ∈ res.responders,
        List.Chain' (fun e1 e2 => e1.time ≤ e2.time) r.timeline := by
  intro res hres r hr
  rcases hrun : runTeam d b assignment (team.map Responder.reset) [] [] with e | out
  · simp only [simRun, hrun] at hres
    exact absurd hres (by simp)
  · rcases out with ⟨team', c, ws⟩
    simp only [simRun, hrun] at hres
    have hresp : res.responders = team' := by
      by_cases h1 : team'.isEmpty
      · unfold collectResults at hres
        rw [if_pos h1] at hres
        exact absurd hres (by simp)
      · by_cases h2 : b.rooms.isEmpty
        · unfold collectResults at hres
          rw [if_neg h1, if_pos h2] at hres
          exact absurd hres (by simp)
        · unfold collectResults at hres
          rw [if_neg h1, if_neg h2] at hres
          dsimp only at hres
          injection hres with h3
          subst h3
          rfl
    rw [hresp] at hr
    have hwf := runTeam_timelineOk d b assignment hd hrooms (team.map Responder.reset)
      [] [] (team', c, ws) hrun
      (by
        intro r0 hr0
        obtain ⟨r1, hr1, rfl⟩ := List.mem_map.mp hr0
        exact ⟨reset_timelineOk r1, reset_goodParams r1 (hteam r1 hr1)⟩)
    exact (hwf r hr).1

/-- `simRun_timeline_monotone` at a concrete one-room, one-agent
configuration: the run completes and the agent timeline is
non-decreasing. -/
theorem simRun_timeline_monotone_witness :
    ∃ res : SimResult,
      simRun (fun _ _ => some 5) ⟨[⟨"R1", 4, 0, 0, 1, 1, 1⟩]⟩
          [mkResponder 1 "E1"] [(1, ["R1"])] = .ok res ∧
      ∀ r ∈ res.responders,
        List.Chain' (fun e1 e2 => e1.time ≤ e2.time) r.timeline := by
  obtain ⟨out, hout⟩ := runTeam_ok (fun _ _ => some 5) ⟨[⟨"R1", 4, 0, 0, 1, 1, 1⟩]⟩
    [(1, ["R1"])] ([mkResponder 1 "E1"].map Responder.reset) [] []
    (by
      intro r hr
      simp only [List.map_cons, List.map_nil, List.mem_singleton] at hr
      subst hr
      simp [mkResponder, Responder.reset, List.lookup])
    (by
      intro r hr id hid
      simp only [List.map_cons, List.map_nil, List.mem_singleton] at hr
      subst hr
      left
      have hid' : id = "R1" := by
        simpa [mkResponder, Responder.reset, List.lookup] using hid
      subst hid'
      simp [Building.findRoom])
  have hlen := runTeam_length (fun _ _ => some 5) ⟨[⟨"R1", 4, 0, 0, 1, 1, 1⟩]⟩
    [(1, ["R1"])] ([mkResponder 1 "E1"].map Responder.reset) hout
  rcases out with ⟨team', c, ws⟩
  have hne : team'.isEmpty = false := by
    cases team' with
    | nil => simp at hlen
    | cons a l => rfl
  have hsim : simRun (fun _ _ => some 5) ⟨[⟨"R1", 4, 0, 0, 1, 1, 1⟩]⟩
      [mkResponder 1 "E1"] [(1, ["R1"])]
      = collectResults ⟨[⟨"R1", 4, 0, 0, 1, 1, 1⟩]⟩ team' c ws := by
    simp only [simRun, hout]
  have hcoll := collectResults_ok ⟨[⟨"R1", 4, 0, 0, 1, 1, 1⟩]⟩ team' c ws hne (by simp)
  refine ⟨_, hsim.trans hcoll, ?_⟩
  exact simRun_timeline_monotone (fun _ _ => some 5) ⟨[⟨"R1", 4, 0, 0, 1, 1, 1⟩]⟩
    [mkResponder 1 "E1"] [(1, ["R1"])]
    (by
      intro x y q hq
      simp only [Option.some.injEq] at hq
      subst hq
      norm_num)
    (by
      intro room hroom
      simp only [List.mem_singleton] at hroom
      subst hroom
      norm_num)
    (by
      intro r hr
      simp only [List.mem_singleton] at hr
      subst hr
      unfold goodParams mkResponder
      norm_num)
    _ (hsim.trans hcoll)

/-! ### Claim C8: per-edge traversal speeds -/

/-- A node of `NodeBasedBuilding.nodes`: its `'type'` tag and floor. -/
structure NodeInfo where
  ntype : String
  floor : ℤ
deriving DecidableEq, Repr

/-- The part of the node-based building `NodeSimulator` reads: the node
dictionary and the weighted edge relation
(`graph.has_edge` / `graph[u][v]['weight']`). -/
structure NodeBuilding where
  nodes : List (String × NodeInfo)
  edgeWeight : String → String → Option ℚ

/-- `node_building.nodes.get(n, {}).get('type') == 'stair'`. -/
def isStair (nb : NodeBuilding) (n : String) : Bool :=
  match nb.nodes.lookup n with
  | some info => info.ntype == "stair"
  | none => false

/-- `to_data['floor']` (only read on stair nodes, which are present in
the node dictionary with a floor entry). -/
def floorOf (nb : NodeBuilding) (n : String) : ℤ :=
  match nb.nodes.lookup n with
  | some info => info.floor
  | none => 0

/-- One iteration of the per-edge loop of
`NodeSimulator._execute_node_path` (lines 47-76): on a present edge,
accumulate the edge weight into the running distance and charge the
edge's weight at walking speed, or at the stair-up/stair-down speed for
a stair-to-stair edge, appending a `passing` event; a missing edge is
skipped silently. -/
def stepEdge (nb : NodeBuilding) (acc : Responder × ℚ) (e : String × String) :
    Responder × ℚ :=
  match nb.edgeWeight e.1 e.2 with
  | none => acc
  | some w =>
    if isStair nb e.1 && isStair nb e.2 then
      if floorOf nb e.2 > floorOf nb e.1 then
        ({ acc.1 with
            currentTime := acc.1.currentTime + w / acc.1.stairUpSpeed
            timeline := acc.1.timeline
              ++ [⟨acc.1.currentTime + w / acc.1.stairUpSpeed, .passing, e.2⟩] },
          acc.2 + w)
      else
        ({ acc.1 with
            currentTime := acc.1.currentTime + w / acc.1.stairDownSpeed
            timeline := acc.1.timeline
              ++ [⟨acc.1.currentTime + w / acc.1.stairDownSpeed, .passing, e.2⟩] },
          acc.2 + w)
    else
      ({ acc.1 with
          currentTime := acc.1.currentTime + w / acc.1.walkSpeed
          timeline := acc.1.timeline
            ++ [⟨acc.1.currentTime + w / acc.1.walkSpeed, .passing, e.2⟩] },
        acc.2 + w)

/-- The whole `for i in range(len(path_nodes) - 1)` traversal: fold the
edge step over the consecutive node pairs (`total_distance` starts at
`0`). -/
def traverseNodes (nb : NodeBuilding) (r : Responder) (pathNodes : List String) :
    Responder × ℚ :=
  (pathNodes.zip pathNodes.tail).foldl (stepEdge nb) (r, 0)

/-- Modelled from the spec's words ("traverse each graph edge on that
path, accumulating elapsed time using the appropriate speed"): the cost
of one edge under the agent's speeds. -/
def edgeCost (nb : NodeBuilding) (r : Responder) (e : String × String) : ℚ :=
  match nb.edgeWeight e.1 e.2 with
  | none => 0
  | some w =>
    if isStair nb e.1 && isStair nb e.2 then
      if floorOf nb e.2 > floorOf nb e.1 then w / r.stairUpSpeed
      else w / r.stairDownSpeed
    else w / r.walkSpeed

/-- Modelled from the spec's words: total per-edge elapsed time along a
node path. -/
def specPathTime (nb : NodeBuilding) (r : Responder) (pathNodes : List String) : ℚ :=
  ((pathNodes.zip pathNodes.tail).map (edgeCost nb r)).sum

theorem stepEdge_time (nb : NodeBuilding) (acc : Responder × ℚ) (e : String × String) :
    (stepEdge nb acc e).1.currentTime = acc.1.currentTime + edgeCost nb acc.1 e ∧
    (stepEdge nb acc e).1.walkSpeed = acc.1.walkSpeed ∧
    (stepEdge nb acc e).1.stairUpSpeed = acc.1.stairUpSpeed ∧
    (stepEdge nb acc e).1.stairDownSpeed = acc.1.stairDownSpeed := by
  unfold stepEdge edgeCost
  rcases nb.edgeWeight e.1 e.2 with _ | w
  · simp
  · dsimp only
    split
    · split
      · exact ⟨rfl, rfl, rfl, rfl⟩
      · exact ⟨rfl, rfl, rfl, rfl⟩
    · exact ⟨rfl, rfl, rfl, rfl⟩

theorem edgeCost_congr (nb : NodeBuilding) (r r' : Responder)
    (h1 : r'.walkSpeed = r.walkSpeed) (h2 : r'.stairUpSpeed = r.stairUpSpeed)
    (h3 : r'.stairDownSpeed = r.stairDownSpeed) (e : String × String) :
    edgeCost nb r' e = edgeCost nb r e := by
  unfold edgeCost
  rcases nb.edgeWeight e.1 e.2 with _ | w
  · rfl
  · dsimp only
    rw [h1, h2, h3]

theorem traverseEdges_time (nb : NodeBuilding) :
    ∀ (es : List (String × String)) (r : Responder) (dist : ℚ),
      ((es.foldl (stepEdge nb) (r, dist)).1.currentTime
          = r.currentTime + (es.map (edgeCost nb r)).sum) ∧
        (es.foldl (stepEdge nb) (r, dist)).1.walkSpeed = r.walkSpeed ∧
        (es.foldl (stepEdge nb) (r, dist)).1.stairUpSpeed = r.stairUpSpeed ∧
        (es.foldl (stepEdge nb) (r, dist)).1.stairDownSpeed = r.stairDownSpeed
  | [], r, dist => by simp
  | e :: es, r, dist => by
    rcases hp : stepEdge nb (r, dist) e with ⟨r1, d1⟩
    have hstep := stepEdge_time nb (r, dist) e
    rw [hp] at hstep
    obtain ⟨ht, hw, hu, hdn⟩ := hstep
    have hih := traverseEdges_time nb es r1 d1
    obtain ⟨iht, ihw, ihu, ihd⟩ := hih
    have hcost : es.map (edgeCost nb r1) = es.map (edgeCost nb r) :=
      List.map_congr_left (fun e' _ => edgeCost_congr nb r r1 hw hu hdn e')
    rw [List.foldl_cons, hp]
    refine ⟨?_, by rw [ihw, hw], by rw [ihu, hu], by rw [ihd, hdn]⟩
    rw [iht, hcost, ht]
    simp only [List.map_cons, List.sum_cons]
    ring

/-- **C8 (amended).**  The *node* simulator accumulates elapsed time
edge by edge with the stair-aware speed choice: its traversal of any
node path adds exactly the spec's per-edge total (walking speed for
normal edges, stair-up/stair-down chosen by floor comparison for
stair-to-stair edges).  The coarse `Simulator._execute_path` does not
do this: it charges the whole path distance at walking speed (see
`simulator_whole_path_walk_speed`). -/
theorem nodeSimulator_per_edge_speeds (nb : NodeBuilding) (r : Responder)
    (pathNodes : List String) :
    (traverseNodes nb r pathNodes).1.currentTime
      = r.currentTime + specPathTime nb r pathNodes := by
  unfold traverseNodes specPathTime
  exact (traverseEdges_time nb (pathNodes.zip pathNodes.tail) r 0).1


/-- Distance oracle of the coarse simulator for the C8 scenario: the
graph shortest path from the exit to the upstairs room has total
weight `2 + 3 + 2 = 7`. -/
def dC8 : Dist := fun s t => if s = "E1" ∧ t = "R1" then some 7 else none

/-- One upstairs room of area 4 and complexity 1 (check time `14`). -/
def bC8 : Building := ⟨[⟨"R1", 4, 0, 0, 2, 1, 1⟩]⟩

/-- The node graph for the same scenario: exit, two stair landings on
floors 1 and 2, and the room, with edge weights 2, 3, 2. -/
def nbC8 : NodeBuilding :=
  ⟨[("E1", ⟨"exit", 1⟩), ("SF1", ⟨"stair", 1⟩), ("SF2", ⟨"stair", 2⟩),
    ("R1", ⟨"room", 2⟩)],
   fun s t =>
     if s = "E1" ∧ t = "SF1" then some 2
     else if s = "SF1" ∧ t = "SF2" then some 3
     else if s = "SF2" ∧ t = "R1" then some 2
     else none⟩

/-- **C8 counterexample.**  In the coarse `Simulator` (the replay the
spec describes), the agent's elapsed time after sweeping the upstairs
room is `7/(3/2) + 14 = 56/3`: the whole 7-unit path — including the
stair segment — is charged at walking speed, because `_execute_path`
calls `move_to` with its default `is_stairs=False`.  Per-edge
accumulation with stair speeds, as the claim requires, would give
`2/(3/2) + 3/(2/5) + 2/(3/2) + 14 = 145/6 ≠ 56/3`. -/
theorem simulator_whole_path_walk_speed :
    (∃ out, executePath dC8 bC8 (mkResponder 1 "E1") "E1" ["R1"] [] [] = .ok out ∧
      out.1.currentTime = 56 / 3) ∧
    (mkResponder 1 "E1").currentTime
        + specPathTime nbC8 (mkResponder 1 "E1") ["E1", "SF1", "SF2", "R1"]
        + (⟨"R1", 4, 0, 0, 2, 1, 1⟩ : Room).calculate_check_time 10 1 = 145 / 6 ∧
    (56 / 3 : ℚ) ≠ 145 / 6 := by
  refine ⟨⟨_, rfl, ?_⟩, ?_, by norm_num⟩
  · simp [executePath, dC8, bC8, Building.findRoom, mkResponder, Responder.move_to,
      Responder.check_room, Room.calculate_check_time]
    norm_num
  · simp [specPathTime, edgeCost, nbC8, isStair, floorOf, mkResponder,
      Room.calculate_check_time, List.zip, List.lookup]
    norm_num

end Sweep
